import Mathlib

/-!
Verification of the conversational command interpreter of the School-Rasa
repository.  The Python sources under `rasa/actions` and `app/api/routers`
are embedded shallowly: the text heuristics become functions on `List Char`
(modelling Python string methods and the concrete regular expressions used
by the source on the ASCII text the interpreter handles), and HTTP-backed
actions become deterministic interpreters over an explicit backend-state
value.
-/

namespace SchoolRasa

/-! ## ASCII character primitives (Python `\w`, `\s`, `\d`, case maps) -/

theorem toNat_ofNat_of_valid {n : Nat} (h : n.isValidChar) :
    (Char.ofNat n).toNat = n := by
  rw [Char.ofNat, dif_pos h]; rfl

/-- Python regex word character `\w` (ASCII fragment: letters, digits, `_`). -/
def isWordChar (c : Char) : Bool :=
  decide ((65 ≤ c.toNat ∧ c.toNat ≤ 90) ∨ (97 ≤ c.toNat ∧ c.toNat ≤ 122) ∨
    (48 ≤ c.toNat ∧ c.toNat ≤ 57) ∨ c.toNat = 95)

/-- Python regex whitespace `\s` (space, tab, newline, CR, VT, FF). -/
def isWsChar (c : Char) : Bool :=
  decide (c.toNat = 32 ∨ c.toNat = 9 ∨ c.toNat = 10 ∨ c.toNat = 13 ∨
    c.toNat = 11 ∨ c.toNat = 12)

/-- Python `str.isdigit` on one ASCII character / regex `\d`. -/
def isDigitChar (c : Char) : Bool :=
  decide (48 ≤ c.toNat ∧ c.toNat ≤ 57)

/-- An ASCII letter (either case). -/
def isAlphaChar (c : Char) : Bool :=
  decide ((65 ≤ c.toNat ∧ c.toNat ≤ 90) ∨ (97 ≤ c.toNat ∧ c.toNat ≤ 122))

/-- ASCII lower-casing, as Python `str.lower` acts on the ASCII text the
interpreter handles. -/
def lowerChar (c : Char) : Char :=
  if 65 ≤ c.toNat ∧ c.toNat ≤ 90 then Char.ofNat (c.toNat + 32) else c

/-- ASCII upper-casing, as Python `str.upper` acts on ASCII text. -/
def upperChar (c : Char) : Char :=
  if 97 ≤ c.toNat ∧ c.toNat ≤ 122 then Char.ofNat (c.toNat - 32) else c

theorem lowerChar_toNat (c : Char) :
    (lowerChar c).toNat =
      if 65 ≤ c.toNat ∧ c.toNat ≤ 90 then c.toNat + 32 else c.toNat := by
  unfold lowerChar
  split
  · next h => exact toNat_ofNat_of_valid (Or.inl (by omega))
  · rfl

theorem upperChar_toNat (c : Char) :
    (upperChar c).toNat =
      if 97 ≤ c.toNat ∧ c.toNat ≤ 122 then c.toNat - 32 else c.toNat := by
  unfold upperChar
  split
  · next h => exact toNat_ofNat_of_valid (Or.inl (by omega))
  · rfl

theorem char_toNat_injective {a b : Char} (h : a.toNat = b.toNat) : a = b :=
  Char.ext (UInt32.toNat.inj h)

theorem lowerChar_idem (c : Char) : lowerChar (lowerChar c) = lowerChar c := by
  apply char_toNat_injective
  simp only [lowerChar_toNat]
  split_ifs <;> omega

theorem upperChar_idem (c : Char) : upperChar (upperChar c) = upperChar c := by
  apply char_toNat_injective
  simp only [upperChar_toNat]
  split_ifs <;> omega

theorem lowerChar_upperChar (c : Char) :
    lowerChar (upperChar c) = lowerChar c := by
  apply char_toNat_injective
  simp only [lowerChar_toNat, upperChar_toNat]
  split_ifs <;> omega

theorem upperChar_lowerChar (c : Char) :
    upperChar (lowerChar c) = upperChar c := by
  apply char_toNat_injective
  simp only [upperChar_toNat, lowerChar_toNat]
  split_ifs <;> omega

theorem isAlphaChar_lowerChar (c : Char) :
    isAlphaChar (lowerChar c) = isAlphaChar c := by
  simp only [isAlphaChar, decide_eq_decide]
  rw [lowerChar_toNat]
  split_ifs <;> omega

theorem isAlphaChar_upperChar (c : Char) :
    isAlphaChar (upperChar c) = isAlphaChar c := by
  simp only [isAlphaChar, decide_eq_decide]
  rw [upperChar_toNat]
  split_ifs <;> omega

theorem isWsChar_lowerChar (c : Char) : isWsChar (lowerChar c) = isWsChar c := by
  simp only [isWsChar, decide_eq_decide]
  rw [lowerChar_toNat]
  split_ifs <;> omega

theorem isWsChar_upperChar (c : Char) : isWsChar (upperChar c) = isWsChar c := by
  simp only [isWsChar, decide_eq_decide]
  rw [upperChar_toNat]
  split_ifs <;> omega

theorem isWordChar_lowerChar (c : Char) :
    isWordChar (lowerChar c) = isWordChar c := by
  simp only [isWordChar, decide_eq_decide]
  rw [lowerChar_toNat]
  split_ifs <;> omega

theorem isWordChar_upperChar (c : Char) :
    isWordChar (upperChar c) = isWordChar c := by
  simp only [isWordChar, decide_eq_decide]
  rw [upperChar_toNat]
  split_ifs <;> omega

theorem isDigitChar_lowerChar (c : Char) :
    isDigitChar (lowerChar c) = isDigitChar c := by
  simp only [isDigitChar, decide_eq_decide]
  rw [lowerChar_toNat]
  split_ifs <;> omega

theorem isDigitChar_upperChar (c : Char) :
    isDigitChar (upperChar c) = isDigitChar c := by
  simp only [isDigitChar, decide_eq_decide]
  rw [upperChar_toNat]
  split_ifs <;> omega

theorem isWordChar_of_isAlphaChar {c : Char} (h : isAlphaChar c = true) :
    isWordChar c = true := by
  simp only [isAlphaChar, decide_eq_true_eq] at h
  simp only [isWordChar, decide_eq_true_eq]
  omega

theorem not_isWsChar_of_isAlphaChar {c : Char} (h : isAlphaChar c = true) :
    isWsChar c = false := by
  simp only [isAlphaChar, decide_eq_true_eq] at h
  simp only [isWsChar, decide_eq_false_iff_not]
  omega

theorem not_isWsChar_of_isDigitChar {c : Char} (h : isDigitChar c = true) :
    isWsChar c = false := by
  simp only [isDigitChar, decide_eq_true_eq] at h
  simp only [isWsChar, decide_eq_false_iff_not]
  omega

theorem lowerChar_eq_self_of_isDigitChar {c : Char} (h : isDigitChar c = true) :
    lowerChar c = c := by
  simp only [isDigitChar, decide_eq_true_eq] at h
  unfold lowerChar
  rw [if_neg]; omega

/-! ## List-of-character utilities mirroring Python string methods -/

/-- Python `str.lower` on ASCII text. -/
def lowerList (l : List Char) : List Char := l.map lowerChar

/-- Python `str.strip`: remove whitespace from both ends. -/
def stripChars (l : List Char) : List Char :=
  ((l.dropWhile isWsChar).reverse.dropWhile isWsChar).reverse

/-- Python `str.title` on ASCII text: upper-case a letter that follows a
non-letter, lower-case a letter that follows a letter.  The boolean state
records whether the previous character was a (cased) letter. -/
def pyTitleAux (prevCased : Bool) : List Char → List Char
  | [] => []
  | c :: cs =>
    if isAlphaChar c then
      (if prevCased then lowerChar c else upperChar c) :: pyTitleAux true cs
    else
      c :: pyTitleAux false cs

def pyTitle (l : List Char) : List Char := pyTitleAux false l

/-- Python `str.isdigit` (true iff non-empty and all digits). -/
def pyIsDigit (l : List Char) : Bool := !l.isEmpty && l.all isDigitChar

theorem length_dropWhile_le (p : α → Bool) (l : List α) :
    (l.dropWhile p).length ≤ l.length := by
  induction l with
  | nil => simp
  | cons c cs ih =>
    rw [List.dropWhile_cons]
    split
    · exact Nat.le_succ_of_le ih
    · exact Nat.le_refl _

theorem pyTitleAux_length (b : Bool) (l : List Char) :
    (pyTitleAux b l).length = l.length := by
  induction l generalizing b with
  | nil => rfl
  | cons c cs ih =>
    unfold pyTitleAux
    split <;> simp [ih]

theorem pyTitleAux_idem (l : List Char) :
    ∀ b, pyTitleAux b (pyTitleAux b l) = pyTitleAux b l := by
  induction l with
  | nil => intro b; rfl
  | cons c cs ih =>
    intro b
    by_cases hc : isAlphaChar c = true
    · cases b with
      | false =>
        have hc' : isAlphaChar (upperChar c) = true := by
          rw [isAlphaChar_upperChar]; exact hc
        simp [pyTitleAux, hc, hc', upperChar_idem, ih true]
      | true =>
        have hc' : isAlphaChar (lowerChar c) = true := by
          rw [isAlphaChar_lowerChar]; exact hc
        simp [pyTitleAux, hc, hc', lowerChar_idem, ih true]
    · simp [pyTitleAux, hc, ih false]

theorem lowerList_pyTitleAux (l : List Char) :
    ∀ b, lowerList (pyTitleAux b l) = lowerList l := by
  induction l with
  | nil => intro b; rfl
  | cons c cs ih =>
    intro b
    have ihT := ih true
    have ihF := ih false
    simp only [lowerList] at ihT ihF ⊢
    by_cases hc : isAlphaChar c = true
    · cases b with
      | false => simp [pyTitleAux, hc, lowerChar_upperChar, ihT]
      | true => simp [pyTitleAux, hc, lowerChar_idem, ihT]
    · simp [pyTitleAux, hc, ihF]

/-! ## The concrete regular expressions used by `normalize_level_label`
(`academic_actions.py`, lines 1056-1090) as functions on `List Char`. -/

/-- Case-insensitive prefix match against an already-lowercase pattern,
returning the remaining text on success (regex alternative matching with
`re.IGNORECASE`). -/
def ciPrefix : List Char → List Char → Option (List Char)
  | [], t => some t
  | _ :: _, [] => none
  | p :: ps, c :: cs => if lowerChar c = p then ciPrefix ps cs else none

/-- Python `text.lower().startswith(pat)` for a lowercase `pat`. -/
def ciIsPrefix (p t : List Char) : Bool := (ciPrefix p t).isSome

theorem ciPrefix_length :
    ∀ (p t r : List Char), ciPrefix p t = some r → r.length + p.length = t.length := by
  intro p
  induction p with
  | nil => intro t r h; simp [ciPrefix] at h; simp [h]
  | cons q qs ih =>
    intro t r h
    cases t with
    | nil => simp [ciPrefix] at h
    | cons c cs =>
      simp only [ciPrefix] at h
      split at h
      · have := ih cs r h
        simp [List.length_cons]
        omega
      · exact absurd h (by simp)

/-- One attempted match of the pattern `\bgrade\s+` at the head of the text
(the `\b` itself is handled by the scanner state): `grade` case-insensitively,
then at least one whitespace character, consumed greedily.  Returns the text
after the match. -/
def matchGrade (t : List Char) : Option (List Char) :=
  match ciPrefix ['g', 'r', 'a', 'd', 'e'] t with
  | some r =>
    match r with
    | [] => none
    | w :: ws => if isWsChar w then some (ws.dropWhile isWsChar) else none
  | none => none

theorem matchGrade_length {t rest : List Char} (h : matchGrade t = some rest) :
    rest.length + 6 ≤ t.length := by
  unfold matchGrade at h
  cases hp : ciPrefix ['g', 'r', 'a', 'd', 'e'] t with
  | none => rw [hp] at h; simp at h
  | some r =>
    rw [hp] at h
    have hlen := ciPrefix_length _ _ _ hp
    cases r with
    | nil => simp at h
    | cons w ws =>
      by_cases hw : isWsChar w = true
      · simp only [hw, if_true, Option.some.injEq] at h
        subst h
        have hdw := length_dropWhile_le isWsChar ws
        simp only [List.length_cons] at hlen
        omega
      · simp [hw] at h

/-- `re.sub(r'\bgrade\s+', 'Class ', text, flags=re.IGNORECASE)`: scan left
to right; the boolean state records whether the previous character of the
original text was a word character (so that `\b` holds exactly when it is
`false`). -/
def subGradeAux : Bool → List Char → List Char
  | _, [] => []
  | true, c :: cs => c :: subGradeAux (isWordChar c) cs
  | false, c :: cs =>
    match hm : matchGrade (c :: cs) with
    | some rest => 'C' :: 'l' :: 'a' :: 's' :: 's' :: ' ' :: subGradeAux false rest
    | none => c :: subGradeAux (isWordChar c) cs
termination_by _ t => t.length
decreasing_by
  · simp only [List.length_cons]; omega
  · have := matchGrade_length hm
    simp only [List.length_cons] at this ⊢
    omega
  · simp only [List.length_cons]; omega

/-- The scan of `subGradeAux` finds no occurrence of `\bgrade\s+` anywhere. -/
def noGrade : Bool → List Char → Bool
  | _, [] => true
  | b, c :: cs => (b || (matchGrade (c :: cs)).isNone) && noGrade (isWordChar c) cs

/-- After one whitespace character, greedy whitespace, then a digit: the
`\s+\d+` tail of the level-label regex. -/
def wsThenDigit : List Char → Bool
  | [] => false
  | c :: cs =>
    isWsChar c &&
      (match cs.dropWhile isWsChar with
       | [] => false
       | d :: _ => isDigitChar d)

def kwWsDigit (kw : List Char) (t : List Char) : Bool :=
  match ciPrefix kw t with
  | some r => wsThenDigit r
  | none => false

/-- `re.match(r'^(form|jss|pp|standard)\s+\d+', text, re.IGNORECASE)`. -/
def formMatch (t : List Char) : Bool :=
  kwWsDigit ['f', 'o', 'r', 'm'] t || kwWsDigit ['j', 's', 's'] t ||
    kwWsDigit ['p', 'p'] t || kwWsDigit ['s', 't', 'a', 'n', 'd', 'a', 'r', 'd'] t

/-- `text.lower().startswith('class')`. -/
def startsWithClass (t : List Char) : Bool :=
  ciIsPrefix ['c', 'l', 'a', 's', 's'] t

/-- `normalize_level_label` from `ActionCreateClass.run`
(`academic_actions.py` lines 1056-1090): maps "grade N" to "Class N",
preserves Form/JSS/PP/Standard labels (title-cased), passes bare numbers
through, and title-cases everything else. -/
def normalize_level_label (s : String) : String :=
  if s = "" then s
  else
    let t := stripChars s.data
    if formMatch t then ⟨pyTitle t⟩
    else if pyIsDigit t then ⟨t⟩
    else
      let t2 := subGradeAux false t
      if startsWithClass t2 then ⟨pyTitle t2⟩ else ⟨pyTitle t2⟩

/-! ## Case-insensitivity: the scanners only depend on lower-cased text -/

theorem isWsChar_congr_lower {a b : Char} (h : lowerChar a = lowerChar b) :
    isWsChar a = isWsChar b := by
  rw [← isWsChar_lowerChar a, ← isWsChar_lowerChar b, h]

theorem isWordChar_congr_lower {a b : Char} (h : lowerChar a = lowerChar b) :
    isWordChar a = isWordChar b := by
  rw [← isWordChar_lowerChar a, ← isWordChar_lowerChar b, h]

theorem isDigitChar_congr_lower {a b : Char} (h : lowerChar a = lowerChar b) :
    isDigitChar a = isDigitChar b := by
  rw [← isDigitChar_lowerChar a, ← isDigitChar_lowerChar b, h]

theorem lowerList_cons_inv {a b : Char} {as bs : List Char}
    (h : lowerList (a :: as) = lowerList (b :: bs)) :
    lowerChar a = lowerChar b ∧ lowerList as = lowerList bs := by
  simpa [lowerList] using h

theorem lowerList_nil_iff {t : List Char} : lowerList t = [] ↔ t = [] := by
  cases t <;> simp [lowerList]

theorem dropWhile_isWs_congr_lower :
    ∀ {t₁ t₂ : List Char}, lowerList t₁ = lowerList t₂ →
      lowerList (t₁.dropWhile isWsChar) = lowerList (t₂.dropWhile isWsChar) := by
  intro t₁
  induction t₁ with
  | nil =>
    intro t₂ h
    have ht : t₂ = [] := lowerList_nil_iff.mp (by simpa [lowerList] using h.symm)
    subst ht; rfl
  | cons a as ih =>
    intro t₂ h
    cases t₂ with
    | nil => simp [lowerList] at h
    | cons b bs =>
      obtain ⟨hc, hcs⟩ := lowerList_cons_inv h
      have hw := isWsChar_congr_lower hc
      by_cases hwa : isWsChar a = true
      · rw [List.dropWhile_cons_of_pos hwa,
          List.dropWhile_cons_of_pos (hw ▸ hwa)]
        exact ih hcs
      · rw [List.dropWhile_cons_of_neg hwa,
          List.dropWhile_cons_of_neg (hw ▸ hwa)]
        exact h

theorem ciPrefix_congr_lower :
    ∀ (p : List Char) {t₁ t₂ : List Char}, lowerList t₁ = lowerList t₂ →
      Option.map lowerList (ciPrefix p t₁) = Option.map lowerList (ciPrefix p t₂) := by
  intro p
  induction p with
  | nil => intro t₁ t₂ h; simpa [ciPrefix] using h
  | cons q qs ih =>
    intro t₁ t₂ h
    cases t₁ with
    | nil =>
      have ht : t₂ = [] := lowerList_nil_iff.mp (by simpa using h.symm)
      subst ht; rfl
    | cons a as =>
      cases t₂ with
      | nil => simp [lowerList] at h
      | cons b bs =>
        obtain ⟨hc, hcs⟩ := lowerList_cons_inv h
        simp only [ciPrefix, hc]
        split
        · exact ih hcs
        · rfl

theorem matchGrade_congr_lower {t₁ t₂ : List Char}
    (h : lowerList t₁ = lowerList t₂) :
    Option.map lowerList (matchGrade t₁) = Option.map lowerList (matchGrade t₂) := by
  unfold matchGrade
  have hp := ciPrefix_congr_lower ['g', 'r', 'a', 'd', 'e'] h
  cases h₁ : ciPrefix ['g', 'r', 'a', 'd', 'e'] t₁ with
  | none =>
    cases h₂ : ciPrefix ['g', 'r', 'a', 'd', 'e'] t₂ with
    | none => rfl
    | some r₂ => rw [h₁, h₂] at hp; simp at hp
  | some r₁ =>
    cases h₂ : ciPrefix ['g', 'r', 'a', 'd', 'e'] t₂ with
    | none => rw [h₁, h₂] at hp; simp at hp
    | some r₂ =>
      rw [h₁, h₂] at hp
      have hr : lowerList r₁ = lowerList r₂ := by simpa using hp
      cases r₁ with
      | nil =>
        have ht : r₂ = [] := lowerList_nil_iff.mp (by simpa using hr.symm)
        subst ht; rfl
      | cons w₁ ws₁ =>
        cases r₂ with
        | nil => simp [lowerList] at hr
        | cons w₂ ws₂ =>
          obtain ⟨hw, hws⟩ := lowerList_cons_inv hr
          have hwb := isWsChar_congr_lower hw
          cases h1 : isWsChar w₁ with
          | true =>
            have h2 : isWsChar w₂ = true := hwb ▸ h1
            simp [h1, h2, dropWhile_isWs_congr_lower hws]
          | false =>
            have h2 : isWsChar w₂ = false := hwb ▸ h1
            simp [h1, h2]

theorem noGrade_congr_lower :
    ∀ {t₁ t₂ : List Char} (b : Bool), lowerList t₁ = lowerList t₂ →
      noGrade b t₁ = noGrade b t₂ := by
  intro t₁
  induction t₁ with
  | nil =>
    intro t₂ b h
    have ht : t₂ = [] := lowerList_nil_iff.mp (by simpa using h.symm)
    subst ht; rfl
  | cons a as ih =>
    intro t₂ b h
    cases t₂ with
    | nil => simp [lowerList] at h
    | cons c cs =>
      obtain ⟨hc, hcs⟩ := lowerList_cons_inv h
      have hmg := matchGrade_congr_lower h
      have hmn : (matchGrade (a :: as)).isNone = (matchGrade (c :: cs)).isNone := by
        cases h₁ : matchGrade (a :: as) <;> cases h₂ : matchGrade (c :: cs) <;>
          rw [h₁, h₂] at hmg <;> simp_all
      simp only [noGrade, hmn, isWordChar_congr_lower hc, ih (isWordChar c) hcs]

theorem wsThenDigit_congr_lower {t₁ t₂ : List Char}
    (h : lowerList t₁ = lowerList t₂) : wsThenDigit t₁ = wsThenDigit t₂ := by
  cases t₁ with
  | nil =>
    have ht : t₂ = [] := lowerList_nil_iff.mp (by simpa using h.symm)
    subst ht; rfl
  | cons a as =>
    cases t₂ with
    | nil => simp [lowerList] at h
    | cons c cs =>
      obtain ⟨hc, hcs⟩ := lowerList_cons_inv h
      have hd := dropWhile_isWs_congr_lower hcs
      simp only [wsThenDigit, isWsChar_congr_lower hc]
      congr 1
      cases h₁ : as.dropWhile isWsChar with
      | nil =>
        rw [h₁] at hd
        have ht : cs.dropWhile isWsChar = [] :=
          lowerList_nil_iff.mp (by simpa using hd.symm)
        rw [ht]
      | cons d ds =>
        cases h₂ : cs.dropWhile isWsChar with
        | nil => rw [h₁, h₂] at hd; simp [lowerList] at hd
        | cons e es =>
          rw [h₁, h₂] at hd
          obtain ⟨hde, _⟩ := lowerList_cons_inv hd
          simp [isDigitChar_congr_lower hde]

theorem kwWsDigit_congr_lower (kw : List Char) {t₁ t₂ : List Char}
    (h : lowerList t₁ = lowerList t₂) : kwWsDigit kw t₁ = kwWsDigit kw t₂ := by
  unfold kwWsDigit
  have hp := ciPrefix_congr_lower kw h
  cases h₁ : ciPrefix kw t₁ with
  | none =>
    cases h₂ : ciPrefix kw t₂ with
    | none => rfl
    | some r₂ => rw [h₁, h₂] at hp; simp at hp
  | some r₁ =>
    cases h₂ : ciPrefix kw t₂ with
    | none => rw [h₁, h₂] at hp; simp at hp
    | some r₂ =>
      rw [h₁, h₂] at hp
      exact wsThenDigit_congr_lower (by simpa using hp)

theorem formMatch_congr_lower {t₁ t₂ : List Char}
    (h : lowerList t₁ = lowerList t₂) : formMatch t₁ = formMatch t₂ := by
  unfold formMatch
  rw [kwWsDigit_congr_lower _ h, kwWsDigit_congr_lower _ h,
    kwWsDigit_congr_lower _ h, kwWsDigit_congr_lower _ h]

/-! ## `re.sub(r'\bgrade\s+', 'Class ', ...)` leaves no further matches -/

theorem subGradeAux_nil (b : Bool) : subGradeAux b [] = [] := by
  cases b <;> simp [subGradeAux]

theorem subGradeAux_true_cons (c : Char) (cs : List Char) :
    subGradeAux true (c :: cs) = c :: subGradeAux (isWordChar c) cs := by
  simp [subGradeAux]

theorem subGradeAux_false_cons_of_match {c : Char} {cs rest : List Char}
    (h : matchGrade (c :: cs) = some rest) :
    subGradeAux false (c :: cs) =
      'C' :: 'l' :: 'a' :: 's' :: 's' :: ' ' :: subGradeAux false rest := by
  simp only [subGradeAux]
  split
  · next heq =>
    rw [h] at heq
    simp only [Option.some.injEq] at heq
    rw [heq]
  · next heq => rw [h] at heq; exact Option.noConfusion heq

theorem subGradeAux_false_cons_of_none {c : Char} {cs : List Char}
    (h : matchGrade (c :: cs) = none) :
    subGradeAux false (c :: cs) = c :: subGradeAux (isWordChar c) cs := by
  simp only [subGradeAux]
  split
  · next heq => rw [h] at heq; exact Option.noConfusion heq
  · next heq => rfl

theorem subGradeAux_eq_nil_iff (b : Bool) (t : List Char) :
    subGradeAux b t = [] ↔ t = [] := by
  constructor
  · intro h
    cases t with
    | nil => rfl
    | cons c cs =>
      cases b with
      | true => rw [subGradeAux_true_cons] at h; simp at h
      | false =>
        cases hm : matchGrade (c :: cs) with
        | some rest => rw [subGradeAux_false_cons_of_match hm] at h; simp at h
        | none => rw [subGradeAux_false_cons_of_none hm] at h; simp at h
  · intro h; subst h; exact subGradeAux_nil b

theorem ciPrefix_subGradeAux_true :
    ∀ (p : List Char), (∀ q ∈ p, isAlphaChar q = true) →
      ∀ cs, ciPrefix p (subGradeAux true cs) =
        (ciPrefix p cs).map (subGradeAux true) := by
  intro p
  induction p with
  | nil => intro _ cs; rfl
  | cons q qs ih =>
    intro hall cs
    cases cs with
    | nil => simp [subGradeAux_nil, ciPrefix]
    | cons c cs' =>
      rw [subGradeAux_true_cons]
      by_cases hq : lowerChar c = q
      · have hqa : isAlphaChar q = true := hall q (by simp)
        have hcw : isWordChar c = true := by
          rw [← isWordChar_lowerChar, hq]
          exact isWordChar_of_isAlphaChar hqa
        simp only [ciPrefix, hq, if_pos rfl, hcw]
        exact ih (fun x hx => hall x (by simp [hx])) cs'
      · simp [ciPrefix, hq]

theorem matchGrade_cons_none {c : Char} (h : ¬ lowerChar c = 'g')
    (xs : List Char) : matchGrade (c :: xs) = none := by
  simp [matchGrade, ciPrefix, h]

theorem matchGrade_some_head {c : Char} {cs rest : List Char}
    (h : matchGrade (c :: cs) = some rest) : lowerChar c = 'g' := by
  by_contra hc
  rw [matchGrade_cons_none hc] at h
  exact Option.noConfusion h

/-- Whether a fresh match attempt at the same scan position succeeds is not
changed by substituting the tail of the text. -/
theorem matchGrade_isNone_cons_subGrade (c : Char) (cs : List Char) :
    (matchGrade (c :: subGradeAux (isWordChar c) cs)).isNone =
      (matchGrade (c :: cs)).isNone := by
  by_cases hg : lowerChar c = 'g'
  · have hcw : isWordChar c = true := by
      rw [← isWordChar_lowerChar, hg]; decide
    rw [hcw]
    have hp := ciPrefix_subGradeAux_true ['r', 'a', 'd', 'e'] (by decide) cs
    unfold matchGrade
    simp only [ciPrefix, hg, if_pos rfl]
    rw [hp]
    cases hr : ciPrefix ['r', 'a', 'd', 'e'] cs with
    | none => rfl
    | some r =>
      simp only [Option.map_some']
      cases r with
      | nil => simp [subGradeAux_nil]
      | cons w ws =>
        rw [subGradeAux_true_cons]
        cases hw : isWsChar w <;> simp [hw]
  · rw [matchGrade_cons_none hg, matchGrade_cons_none hg]

theorem noGrade_subGradeAux :
    ∀ n (t : List Char) (b : Bool), t.length ≤ n →
      noGrade b (subGradeAux b t) = true := by
  intro n
  induction n with
  | zero =>
    intro t b h
    have : t = [] := by
      cases t with
      | nil => rfl
      | cons c cs => simp at h
    subst this
    simp [subGradeAux_nil, noGrade]
  | succ n ih =>
    intro t b h
    cases t with
    | nil => simp [subGradeAux_nil, noGrade]
    | cons c cs =>
      cases b with
      | true =>
        rw [subGradeAux_true_cons]
        simp only [noGrade, Bool.true_or, Bool.true_and]
        exact ih cs (isWordChar c) (by simpa using Nat.le_of_succ_le_succ h)
      | false =>
        cases hm : matchGrade (c :: cs) with
        | some rest =>
          rw [subGradeAux_false_cons_of_match hm]
          have hrest : noGrade false (subGradeAux false rest) = true := by
            have := matchGrade_length hm
            exact ih rest false (by simp at h this ⊢; omega)
          simp only [noGrade]
          rw [matchGrade_cons_none (by decide) _]
          rw [matchGrade_cons_none (by decide) _]
          rw [matchGrade_cons_none (by decide) _]
          rw [matchGrade_cons_none (by decide) _]
          rw [matchGrade_cons_none (by decide) _]
          rw [matchGrade_cons_none (by decide) _]
          simp only [Option.isNone_none, Bool.or_true, Bool.true_and]
          exact hrest
        | none =>
          rw [subGradeAux_false_cons_of_none hm]
          simp only [noGrade, Bool.false_or]
          rw [matchGrade_isNone_cons_subGrade, hm]
          simp only [Option.isNone_none, Bool.false_or]
          have := ih cs (isWordChar c) (by simpa using Nat.le_of_succ_le_succ h)
          simp [this]

theorem subGradeAux_of_noGrade :
    ∀ (t : List Char) (b : Bool), noGrade b t = true → subGradeAux b t = t := by
  intro t
  induction t with
  | nil => intro b _; exact subGradeAux_nil b
  | cons c cs ih =>
    intro b h
    simp only [noGrade, Bool.and_eq_true, Bool.or_eq_true] at h
    obtain ⟨h1, h2⟩ := h
    cases b with
    | true =>
      rw [subGradeAux_true_cons, ih (isWordChar c) h2]
    | false =>
      have hnone : matchGrade (c :: cs) = none := by
        rcases h1 with h1 | h1
        · exact absurd h1 (by simp)
        · exact Option.isNone_iff_eq_none.mp h1
      rw [subGradeAux_false_cons_of_none hnone, ih (isWordChar c) h2]

/-! ## The anchored level-label regex is unaffected by the grade-substitution -/

/-- The first non-whitespace character, if any, is a digit. -/
def firstNonWsDigit (u : List Char) : Bool :=
  match u.dropWhile isWsChar with
  | [] => false
  | d :: _ => isDigitChar d

theorem wsThenDigit_cons (c : Char) (cs : List Char) :
    wsThenDigit (c :: cs) = (isWsChar c && firstNonWsDigit cs) := rfl

theorem not_isWordChar_of_isWsChar {c : Char} (h : isWsChar c = true) :
    isWordChar c = false := by
  simp only [isWsChar, decide_eq_true_eq] at h
  simp only [isWordChar, decide_eq_false_iff_not]
  omega

theorem firstNonWsDigit_subGradeAux_false :
    ∀ v, firstNonWsDigit (subGradeAux false v) = firstNonWsDigit v := by
  intro v
  induction v with
  | nil => simp [subGradeAux_nil]
  | cons x xs ih =>
    cases hm : matchGrade (x :: xs) with
    | some rest =>
      rw [subGradeAux_false_cons_of_match hm]
      have hg := matchGrade_some_head hm
      have hxw : isWsChar x = false := by
        rw [← isWsChar_lowerChar, hg]; decide
      have hxd : isDigitChar x = false := by
        rw [← isDigitChar_lowerChar, hg]; decide
      have hC1 : isWsChar 'C' = false := by decide
      have hC2 : isDigitChar 'C' = false := by decide
      simp [firstNonWsDigit, List.dropWhile_cons, hC1, hC2, hxw, hxd]
    | none =>
      rw [subGradeAux_false_cons_of_none hm]
      cases hxw : isWsChar x with
      | false => simp [firstNonWsDigit, List.dropWhile_cons, hxw]
      | true =>
        rw [not_isWordChar_of_isWsChar hxw]
        simpa [firstNonWsDigit, List.dropWhile_cons, hxw] using ih

theorem wsThenDigit_subGradeAux_true (r : List Char) :
    wsThenDigit (subGradeAux true r) = wsThenDigit r := by
  cases r with
  | nil => simp [subGradeAux_nil]
  | cons w ws =>
    rw [subGradeAux_true_cons, wsThenDigit_cons, wsThenDigit_cons]
    cases hw : isWsChar w with
    | false => simp
    | true =>
      rw [not_isWordChar_of_isWsChar hw]
      simp [firstNonWsDigit_subGradeAux_false]

theorem kwWsDigit_subGradeAux_false (q : Char) (qs : List Char)
    (hq : isAlphaChar q = true) (hqs : ∀ x ∈ qs, isAlphaChar x = true)
    (hg : q ≠ 'g') (hc : q ≠ 'c') (t : List Char) :
    kwWsDigit (q :: qs) (subGradeAux false t) = kwWsDigit (q :: qs) t := by
  cases t with
  | nil => simp [subGradeAux_nil]
  | cons c cs =>
    cases hm : matchGrade (c :: cs) with
    | some rest =>
      rw [subGradeAux_false_cons_of_match hm]
      have hch := matchGrade_some_head hm
      have hCl : lowerChar 'C' = 'c' := by decide
      simp [kwWsDigit, ciPrefix, hCl, hch, Ne.symm hc, Ne.symm hg]
    | none =>
      rw [subGradeAux_false_cons_of_none hm]
      by_cases hcq : lowerChar c = q
      · have hcw : isWordChar c = true := by
          rw [← isWordChar_lowerChar, hcq]
          exact isWordChar_of_isAlphaChar hq
        rw [hcw]
        simp only [kwWsDigit, ciPrefix, hcq, if_pos rfl]
        rw [ciPrefix_subGradeAux_true qs hqs cs]
        cases hr : ciPrefix qs cs with
        | none => rfl
        | some r =>
          simp only [Option.map_some']
          exact wsThenDigit_subGradeAux_true r
      · simp [kwWsDigit, ciPrefix, hcq]

theorem formMatch_subGradeAux (t : List Char) :
    formMatch (subGradeAux false t) = formMatch t := by
  unfold formMatch
  rw [kwWsDigit_subGradeAux_false 'f' ['o', 'r', 'm'] (by decide) (by decide)
      (by decide) (by decide),
    kwWsDigit_subGradeAux_false 'j' ['s', 's'] (by decide) (by decide)
      (by decide) (by decide),
    kwWsDigit_subGradeAux_false 'p' ['p'] (by decide) (by decide)
      (by decide) (by decide),
    kwWsDigit_subGradeAux_false 's' ['t', 'a', 'n', 'd', 'a', 'r', 'd']
      (by decide) (by decide) (by decide) (by decide)]

/-! ## `str.isdigit` through title-casing and the grade-substitution -/

theorem all_isDigit_pyTitleAux :
    ∀ (t : List Char) (b : Bool),
      (pyTitleAux b t).all isDigitChar = t.all isDigitChar := by
  intro t
  induction t with
  | nil => intro b; rfl
  | cons c cs ih =>
    intro b
    by_cases hc : isAlphaChar c = true
    · cases b with
      | false =>
        simp [pyTitleAux, hc, isDigitChar_upperChar, ih true]
      | true =>
        simp [pyTitleAux, hc, isDigitChar_lowerChar, ih true]
    · simp [pyTitleAux, hc, ih false]

theorem pyIsDigit_pyTitleAux (t : List Char) (b : Bool) :
    pyIsDigit (pyTitleAux b t) = pyIsDigit t := by
  unfold pyIsDigit
  rw [all_isDigit_pyTitleAux]
  congr 1
  cases t with
  | nil => rfl
  | cons c cs =>
    simp only [pyTitleAux]
    split <;> rfl

theorem all_isDigit_subGradeAux :
    ∀ (t : List Char) (b : Bool),
      (subGradeAux b t).all isDigitChar = true → t.all isDigitChar = true := by
  intro t
  induction t with
  | nil => intro b _; rfl
  | cons c cs ih =>
    intro b h
    cases b with
    | true =>
      rw [subGradeAux_true_cons] at h
      simp only [List.all_cons, Bool.and_eq_true] at h ⊢
      exact ⟨h.1, ih (isWordChar c) h.2⟩
    | false =>
      cases hm : matchGrade (c :: cs) with
      | some rest =>
        rw [subGradeAux_false_cons_of_match hm] at h
        simp only [List.all_cons, Bool.and_eq_true] at h
        exact absurd h.1 (by decide)
      | none =>
        rw [subGradeAux_false_cons_of_none hm] at h
        simp only [List.all_cons, Bool.and_eq_true] at h ⊢
        exact ⟨h.1, ih (isWordChar c) h.2⟩

theorem pyIsDigit_subGradeAux {t : List Char} {b : Bool}
    (h : pyIsDigit (subGradeAux b t) = true) : pyIsDigit t = true := by
  unfold pyIsDigit at h ⊢
  simp only [Bool.and_eq_true, Bool.not_eq_true'] at h ⊢
  constructor
  · cases t with
    | nil =>
      rw [subGradeAux_nil] at h
      exact absurd h.1 (by decide)
    | cons c cs => rfl
  · exact all_isDigit_subGradeAux t b h.2

theorem formMatch_of_pyIsDigit {t : List Char} (h : pyIsDigit t = true) :
    formMatch t = false := by
  cases t with
  | nil => simp [pyIsDigit] at h
  | cons c cs =>
    simp only [pyIsDigit, List.all_cons, Bool.and_eq_true] at h
    have hd : isDigitChar c = true := h.2.1
    have hl : lowerChar c = c := lowerChar_eq_self_of_isDigitChar hd
    have hne : ∀ q : Char, isAlphaChar q = true → ¬ lowerChar c = q := by
      intro q hq hcq
      rw [hl] at hcq
      subst hcq
      simp only [isDigitChar, decide_eq_true_eq] at hd
      simp only [isAlphaChar, decide_eq_true_eq] at hq
      omega
    simp [formMatch, kwWsDigit, ciPrefix,
      hne 'f' (by decide), hne 'j' (by decide), hne 'p' (by decide),
      hne 's' (by decide)]

/-! ## Whitespace at the ends of the text, through each transformation -/

/-- The first character exists and is whitespace. -/
def wsHeadB (t : List Char) : Bool :=
  match t with
  | [] => false
  | c :: _ => isWsChar c

/-- The last character exists and is whitespace. -/
def wsLastB (t : List Char) : Bool :=
  match t.getLast? with
  | none => false
  | some c => isWsChar c

theorem wsLastB_cons_of_ne_nil {c : Char} {l : List Char} (h : l ≠ []) :
    wsLastB (c :: l) = wsLastB l := by
  cases l with
  | nil => exact absurd rfl h
  | cons d ds => simp [wsLastB, List.getLast?_cons_cons]

theorem wsLastB_append_right {l₁ l₂ : List Char} (h : l₂ ≠ []) :
    wsLastB (l₁ ++ l₂) = wsLastB l₂ := by
  unfold wsLastB
  rw [List.getLast?_append]
  cases hl : l₂.getLast? with
  | none =>
    exact absurd (List.getLast?_eq_none_iff.mp hl) h
  | some c => simp

theorem wsHeadB_stripChars (l : List Char) : wsHeadB (stripChars l) = false := by
  unfold stripChars
  set v := (l.dropWhile isWsChar).reverse with hv
  set m := v.dropWhile isWsChar with hm
  cases hrev : m.reverse with
  | nil => rfl
  | cons c cs =>
    show isWsChar c = false
    have hhead : m.getLast? = some c := by
      rw [← List.head?_reverse, hrev]; rfl
    have hvlast : v.getLast? = some c := by
      conv_lhs => rw [← List.takeWhile_append_dropWhile isWsChar v]
      rw [List.getLast?_append, ← hm, hhead]
      rfl
    have hdl : (l.dropWhile isWsChar).head? = some c := by
      rw [← List.getLast?_reverse, ← hv]
      exact hvlast
    have hnot := List.head?_dropWhile_not isWsChar l
    rw [hdl] at hnot
    exact hnot

theorem wsLastB_stripChars (l : List Char) : wsLastB (stripChars l) = false := by
  unfold stripChars wsLastB
  rw [List.getLast?_reverse]
  have := List.head?_dropWhile_not isWsChar (l.dropWhile isWsChar).reverse
  cases hh : ((l.dropWhile isWsChar).reverse.dropWhile isWsChar).head? with
  | none => rfl
  | some c =>
    rw [hh] at this
    simpa [hh] using this

theorem stripChars_eq_self {t : List Char} (hh : wsHeadB t = false)
    (hl : wsLastB t = false) : stripChars t = t := by
  have h1 : t.dropWhile isWsChar = t := by
    cases t with
    | nil => rfl
    | cons c cs =>
      have : isWsChar c = false := hh
      rw [List.dropWhile_cons_of_neg (by simp [this])]
  unfold stripChars
  rw [h1]
  have h2 : t.reverse.dropWhile isWsChar = t.reverse := by
    cases hrev : t.reverse with
    | nil => rfl
    | cons c cs =>
      have hhead : t.reverse.head? = some c := by rw [hrev]; rfl
      rw [List.head?_reverse] at hhead
      have hwc : isWsChar c = false := by
        unfold wsLastB at hl
        rw [hhead] at hl
        exact hl
      rw [List.dropWhile_cons_of_neg (by simp [hwc])]
  rw [h2, List.reverse_reverse]

theorem wsHeadB_pyTitleAux (t : List Char) (b : Bool) :
    wsHeadB (pyTitleAux b t) = wsHeadB t := by
  cases t with
  | nil => rfl
  | cons c cs =>
    by_cases hc : isAlphaChar c = true
    · cases b with
      | false => simp [pyTitleAux, hc, wsHeadB, isWsChar_upperChar]
      | true => simp [pyTitleAux, hc, wsHeadB, isWsChar_lowerChar]
    · simp [pyTitleAux, hc, wsHeadB]

theorem pyTitleAux_ne_nil {t : List Char} (h : t ≠ []) (b : Bool) :
    pyTitleAux b t ≠ [] := by
  cases t with
  | nil => exact absurd rfl h
  | cons c cs =>
    simp only [pyTitleAux]
    split <;> simp

theorem wsLastB_pyTitleAux (t : List Char) :
    ∀ b, wsLastB (pyTitleAux b t) = wsLastB t := by
  induction t with
  | nil => intro b; rfl
  | cons c cs ih =>
    intro b
    cases cs with
    | nil =>
      by_cases hc : isAlphaChar c = true
      · cases b with
        | false => simp [pyTitleAux, hc, wsLastB, isWsChar_upperChar]
        | true => simp [pyTitleAux, hc, wsLastB, isWsChar_lowerChar]
      · simp [pyTitleAux, hc, wsLastB]
    | cons d ds =>
      have hne : pyTitleAux true (d :: ds) ≠ [] := pyTitleAux_ne_nil (by simp) true
      have hne' : pyTitleAux false (d :: ds) ≠ [] := pyTitleAux_ne_nil (by simp) false
      by_cases hc : isAlphaChar c = true
      · have hstep : pyTitleAux b (c :: d :: ds) =
            (if b then lowerChar c else upperChar c) :: pyTitleAux true (d :: ds) := by
          conv_lhs => rw [pyTitleAux]
          rw [if_pos hc]
        rw [hstep, wsLastB_cons_of_ne_nil hne,
          wsLastB_cons_of_ne_nil (by simp), ih true]
      · have hstep : pyTitleAux b (c :: d :: ds) =
            c :: pyTitleAux false (d :: ds) := by
          conv_lhs => rw [pyTitleAux]
          rw [if_neg hc]
        rw [hstep, wsLastB_cons_of_ne_nil hne',
          wsLastB_cons_of_ne_nil (by simp), ih false]

theorem wsHeadB_subGradeAux (t : List Char) (b : Bool) :
    wsHeadB (subGradeAux b t) = wsHeadB t := by
  cases t with
  | nil => rw [subGradeAux_nil]
  | cons c cs =>
    cases b with
    | true => rw [subGradeAux_true_cons]; rfl
    | false =>
      cases hm : matchGrade (c :: cs) with
      | some rest =>
        rw [subGradeAux_false_cons_of_match hm]
        have hg := matchGrade_some_head hm
        have hcw : isWsChar c = false := by
          rw [← isWsChar_lowerChar, hg]; decide
        show isWsChar 'C' = isWsChar c
        rw [hcw]; decide
      | none => rw [subGradeAux_false_cons_of_none hm]; rfl

theorem ciPrefix_decomp :
    ∀ (p t r : List Char), ciPrefix p t = some r → ∃ pre, t = pre ++ r := by
  intro p
  induction p with
  | nil =>
    intro t r h
    simp only [ciPrefix, Option.some.injEq] at h
    exact ⟨[], by simp [h]⟩
  | cons q qs ih =>
    intro t r h
    cases t with
    | nil => simp [ciPrefix] at h
    | cons c cs =>
      simp only [ciPrefix] at h
      split at h
      · obtain ⟨pre, hpre⟩ := ih cs r h
        exact ⟨c :: pre, by simp [hpre]⟩
      · exact absurd h (by simp)

/-- A successful `\bgrade\s+` match splits the text as the matched prefix
(ending in whitespace) followed by the remainder. -/
theorem matchGrade_decomp {t rest : List Char} (h : matchGrade t = some rest) :
    ∃ pre w tw, t = pre ++ w :: tw ++ rest ∧ isWsChar w = true ∧
      (∀ x ∈ tw, isWsChar x = true) := by
  unfold matchGrade at h
  cases hp : ciPrefix ['g', 'r', 'a', 'd', 'e'] t with
  | none => rw [hp] at h; exact Option.noConfusion h
  | some r =>
    rw [hp] at h
    obtain ⟨pre, hpre⟩ := ciPrefix_decomp _ _ _ hp
    cases r with
    | nil => simp at h
    | cons w ws =>
      by_cases hw : isWsChar w = true
      · simp only [hw, if_true, Option.some.injEq] at h
        refine ⟨pre, w, ws.takeWhile isWsChar, ?_, hw, ?_⟩
        · rw [hpre, ← h]
          simp [List.takeWhile_append_dropWhile]
        · intro x hx
          exact List.mem_takeWhile_imp hx
      · simp [hw] at h

theorem wsLastB_subGradeAux :
    ∀ n (t : List Char) (b : Bool), t.length ≤ n →
      wsLastB (subGradeAux b t) = wsLastB t := by
  intro n
  induction n with
  | zero =>
    intro t b h
    have ht : t = [] := by
      cases t with
      | nil => rfl
      | cons c cs => simp at h
    subst ht
    rw [subGradeAux_nil]
  | succ n ih =>
    intro t b h
    cases t with
    | nil => rw [subGradeAux_nil]
    | cons c cs =>
      have hlen : cs.length ≤ n := by simp at h; omega
      cases b with
      | true =>
        rw [subGradeAux_true_cons]
        cases hcs : cs with
        | nil => rw [subGradeAux_nil]
        | cons d ds =>
          rw [← hcs]
          have h1 : subGradeAux (isWordChar c) cs ≠ [] := by
            rw [Ne, subGradeAux_eq_nil_iff, hcs]
            simp
          rw [wsLastB_cons_of_ne_nil h1, wsLastB_cons_of_ne_nil (by simp [hcs]),
            ih cs (isWordChar c) hlen]
      | false =>
        cases hm : matchGrade (c :: cs) with
        | some rest =>
          rw [subGradeAux_false_cons_of_match hm]
          obtain ⟨pre, w, tw, hdec, hwsw, htw⟩ := matchGrade_decomp hm
          have hrlen : rest.length ≤ n := by
            have := matchGrade_length hm
            simp at h this ⊢
            omega
          cases hrest : rest with
          | nil =>
            rw [subGradeAux_nil]
            rw [hrest] at hdec
            have hl : wsLastB ['C', 'l', 'a', 's', 's', ' '] = true := by decide
            rw [hl]
            rw [hdec]
            cases htww : tw.reverse with
            | nil =>
              have : tw = [] := by
                have := congrArg List.reverse htww
                simpa using this
              subst this
              simp only [List.append_nil]
              rw [wsLastB_append_right (by simp)]
              simp [wsLastB, hwsw]
            | cons x xs =>
              have hx : x ∈ tw := by
                have : x ∈ tw.reverse := by rw [htww]; simp
                simpa using this
              have htne : tw ≠ [] := by
                intro h0; rw [h0] at hx; simp at hx
              simp only [List.append_nil]
              rw [@wsLastB_append_right _ (w :: tw) (by simp)]
              rw [wsLastB_cons_of_ne_nil htne]
              have : tw.getLast? = some x := by
                rw [← List.head?_reverse, htww]; rfl
              simp [wsLastB, this, htw x hx]
          | cons r rs =>
            rw [← hrest]
            have hsubne : subGradeAux false rest ≠ [] := by
              rw [Ne, subGradeAux_eq_nil_iff, hrest]; simp
            have hrestne : rest ≠ [] := by rw [hrest]; simp
            have hstep : wsLastB
                ('C' :: 'l' :: 'a' :: 's' :: 's' :: ' ' :: subGradeAux false rest) =
                wsLastB (subGradeAux false rest) := by
              show wsLastB (['C', 'l', 'a', 's', 's', ' '] ++ subGradeAux false rest) =
                wsLastB (subGradeAux false rest)
              exact wsLastB_append_right hsubne
            rw [hstep, ih rest false hrlen, hdec]
            rw [show pre ++ w :: tw ++ rest = pre ++ (w :: tw ++ rest) by simp,
              wsLastB_append_right (by simp)]
            rw [show w :: tw ++ rest = (w :: tw) ++ rest by simp,
              wsLastB_append_right hrestne]
        | none =>
          rw [subGradeAux_false_cons_of_none hm]
          cases hcs : cs with
          | nil => rw [subGradeAux_nil]
          | cons d ds =>
            rw [← hcs]
            have h1 : subGradeAux (isWordChar c) cs ≠ [] := by
              rw [Ne, subGradeAux_eq_nil_iff, hcs]; simp
            rw [wsLastB_cons_of_ne_nil h1, wsLastB_cons_of_ne_nil (by simp [hcs]),
              ih cs (isWordChar c) hlen]

theorem formMatch_nil : formMatch [] = false := by decide

theorem pyIsDigit_ne_nil {t : List Char} (h : pyIsDigit t = true) : t ≠ [] := by
  intro h0
  subst h0
  simp [pyIsDigit] at h

theorem string_mk_ne_empty {l : List Char} (h : l ≠ []) :
    (⟨l⟩ : String) ≠ "" := by
  intro h0
  have := congrArg String.data h0
  exact h this

/-- C8: `normalize_level_label` is idempotent: applying it twice gives the
same result as applying it once, for every input string. -/
theorem C8_normalize_level_label_idempotent (x : String) :
    normalize_level_label (normalize_level_label x) = normalize_level_label x := by
  by_cases hs : x = ""
  · subst hs; rfl
  · have hx0 : normalize_level_label x =
        (if formMatch (stripChars x.data) = true
          then (⟨pyTitle (stripChars x.data)⟩ : String)
          else if pyIsDigit (stripChars x.data) = true then ⟨stripChars x.data⟩
          else if startsWithClass (subGradeAux false (stripChars x.data)) = true
            then ⟨pyTitle (subGradeAux false (stripChars x.data))⟩
            else ⟨pyTitle (subGradeAux false (stripChars x.data))⟩) := by
      rw [normalize_level_label, if_neg hs]
    set t := stripChars x.data with ht
    have hH : wsHeadB t = false := wsHeadB_stripChars x.data
    have hL : wsLastB t = false := wsLastB_stripChars x.data
    by_cases h1 : formMatch t = true
    · have hx : normalize_level_label x = ⟨pyTitle t⟩ := by rw [hx0, if_pos h1]
      rw [hx]
      have htne : t ≠ [] := by
        intro h0; rw [h0, formMatch_nil] at h1; exact Bool.noConfusion h1
      have hyne : (⟨pyTitle t⟩ : String) ≠ "" :=
        string_mk_ne_empty (pyTitleAux_ne_nil htne false)
      rw [normalize_level_label, if_neg hyne]
      have hdata : String.data ⟨pyTitle t⟩ = pyTitle t := rfl
      have hstrip : stripChars (pyTitle t) = pyTitle t := by
        apply stripChars_eq_self
        · rw [pyTitle, wsHeadB_pyTitleAux]; exact hH
        · rw [pyTitle, wsLastB_pyTitleAux]; exact hL
      have hfm : formMatch (pyTitle t) = true := by
        rw [pyTitle, formMatch_congr_lower (lowerList_pyTitleAux t false)]
        exact h1
      simp only [hdata, hstrip]
      rw [if_pos hfm]
      show (⟨pyTitleAux false (pyTitleAux false t)⟩ : String) = ⟨pyTitleAux false t⟩
      rw [pyTitleAux_idem t false]
    · by_cases h2 : pyIsDigit t = true
      · have hx : normalize_level_label x = ⟨t⟩ := by
          rw [hx0, if_neg h1, if_pos h2]
        rw [hx]
        have htne : t ≠ [] := pyIsDigit_ne_nil h2
        have hyne : (⟨t⟩ : String) ≠ "" := string_mk_ne_empty htne
        rw [normalize_level_label, if_neg hyne]
        have hdata : String.data ⟨t⟩ = t := rfl
        simp only [hdata, stripChars_eq_self hH hL, if_neg h1, if_pos h2]
      · have hx : normalize_level_label x = ⟨pyTitle (subGradeAux false t)⟩ := by
          rw [hx0, if_neg h1, if_neg h2, ite_self]
        rw [hx]
        by_cases htnil : t = []
        · rw [htnil, subGradeAux_nil]
          have h0 : (⟨pyTitle []⟩ : String) = "" := rfl
          rw [h0]
          rfl
        · set t2 := subGradeAux false t with ht2
          have ht2ne : t2 ≠ [] := by
            rw [ht2, Ne, subGradeAux_eq_nil_iff]; exact htnil
          have hyne : (⟨pyTitle t2⟩ : String) ≠ "" :=
            string_mk_ne_empty (pyTitleAux_ne_nil ht2ne false)
          rw [normalize_level_label, if_neg hyne]
          have hH2 : wsHeadB t2 = false := by
            rw [ht2, wsHeadB_subGradeAux]; exact hH
          have hL2 : wsLastB t2 = false := by
            rw [ht2, wsLastB_subGradeAux t.length t false (Nat.le_refl _)]
            exact hL
          have hstrip : stripChars (pyTitle t2) = pyTitle t2 := by
            apply stripChars_eq_self
            · rw [pyTitle, wsHeadB_pyTitleAux]; exact hH2
            · rw [pyTitle, wsLastB_pyTitleAux]; exact hL2
          have hdata : String.data ⟨pyTitle t2⟩ = pyTitle t2 := rfl
          have hfm2 : formMatch (pyTitle t2) = false := by
            rw [pyTitle, formMatch_congr_lower (lowerList_pyTitleAux t2 false),
              ht2, formMatch_subGradeAux]
            exact (Bool.not_eq_true _).mp h1
          have hdig2 : pyIsDigit (pyTitle t2) = false := by
            rw [pyTitle, pyIsDigit_pyTitleAux]
            cases hpd : pyIsDigit t2 with
            | false => rfl
            | true =>
              rw [ht2] at hpd
              exact absurd (pyIsDigit_subGradeAux hpd) h2
          have hsub2 : subGradeAux false (pyTitle t2) = pyTitle t2 := by
            apply subGradeAux_of_noGrade
            rw [pyTitle, noGrade_congr_lower false (lowerList_pyTitleAux t2 false),
              ht2]
            exact noGrade_subGradeAux t.length t false (Nat.le_refl _)
          simp only [hdata, hstrip]
          rw [if_neg (by rw [hfm2]; exact fun h => Bool.noConfusion h)]
          rw [if_neg (by rw [hdig2]; exact fun h => Bool.noConfusion h)]
          rw [hsub2, ite_self]
          show (⟨pyTitleAux false (pyTitleAux false t2)⟩ : String) =
            ⟨pyTitleAux false t2⟩
          rw [pyTitleAux_idem t2 false]

/-! ## `extract_all_streams` (`ActionCreateClass.run`, `academic_actions.py`
lines 1144-1224): the multi-stream fragment extractor. -/

/-- The closed stream vocabulary of `extract_all_streams`
(`academic_actions.py` lines 1152-1169). -/
def stream_keywords : List (List Char) :=
  ["red", "blue", "green", "yellow", "purple", "orange", "pink",
   "white", "black", "brown", "gray", "grey", "violet", "indigo",
   "maroon", "turquoise", "crimson", "scarlet", "amber", "cyan",
   "magenta", "gold", "silver", "bronze",
   "north", "south", "east", "west",
   "alpha", "beta", "gamma", "delta", "omega", "sigma", "theta",
   "a", "b", "c", "d", "e", "f", "g", "h", "i", "j", "k", "l", "m",
   "n", "o", "p", "q", "r", "s", "t", "u", "v", "w", "x", "y", "z",
   "eagle", "lion", "tiger", "falcon", "hawk", "phoenix", "leopard",
   "cheetah", "panther", "marvel", "excellence", "victory", "mama",
   "baba", "silk"].map String.data

/-- The tail of the `\bwith\s+streams?\b` pattern, after `stream` has been
matched: the optional greedy `s` followed by the word boundary. -/
def streamTailOk : List Char → Option (List Char)
  | [] => some []
  | c :: rest =>
    if lowerChar c = 's' then
      match rest with
      | [] => some []
      | d :: _ => if isWordChar d then none else some rest
    else if isWordChar c then none
    else some (c :: rest)

theorem streamTailOk_length {r rest : List Char} (h : streamTailOk r = some rest) :
    rest.length ≤ r.length := by
  unfold streamTailOk at h
  split at h
  · simp only [Option.some.injEq] at h; subst h; simp
  · split at h
    · split at h
      · simp only [Option.some.injEq] at h; subst h; simp
      · split at h
        · exact Option.noConfusion h
        · simp only [Option.some.injEq] at h; subst h
          simp
    · split at h
      · exact Option.noConfusion h
      · simp only [Option.some.injEq] at h; subst h
        simp

/-- One attempted match of `\bwith\s+streams?\b` at the head of the text
(`\b` before `with` is the scanner state).  Returns the text after the
match. -/
def matchWithStreams (t : List Char) : Option (List Char) :=
  match ciPrefix ['w', 'i', 't', 'h'] t with
  | none => none
  | some r =>
    match r with
    | [] => none
    | w :: ws =>
      if isWsChar w then
        match ciPrefix ['s', 't', 'r', 'e', 'a', 'm'] (ws.dropWhile isWsChar) with
        | none => none
        | some r3 => streamTailOk r3
      else none

theorem matchWithStreams_length {t rest : List Char}
    (h : matchWithStreams t = some rest) : rest.length < t.length := by
  unfold matchWithStreams at h
  cases h1 : ciPrefix ['w', 'i', 't', 'h'] t with
  | none => rw [h1] at h; exact Option.noConfusion h
  | some r =>
    rw [h1] at h
    have hl1 := ciPrefix_length _ _ _ h1
    cases r with
    | nil => simp at h
    | cons w ws =>
      by_cases hw : isWsChar w = true
      · simp only [hw, if_true] at h
        have hdw := length_dropWhile_le isWsChar ws
        cases h2 : ciPrefix ['s', 't', 'r', 'e', 'a', 'm'] (ws.dropWhile isWsChar) with
        | none => rw [h2] at h; exact Option.noConfusion h
        | some r3 =>
          rw [h2] at h
          have h3 : streamTailOk r3 = some rest := h
          have hl2 := ciPrefix_length _ _ _ h2
          have hl3 := streamTailOk_length h3
          simp only [List.length_cons] at hl1 hl2 ⊢
          simp at hl1 hl2
          omega
      · simp [hw] at h

/-- `re.sub(r'\bwith\s+streams?\b', '', text, flags=re.IGNORECASE)` as a
left-to-right scan; the state records whether the previous character was a
word character. -/
def subWithStreams : Bool → List Char → List Char
  | _, [] => []
  | true, c :: cs => c :: subWithStreams (isWordChar c) cs
  | false, c :: cs =>
    match hm : matchWithStreams (c :: cs) with
    | some rest => subWithStreams true rest
    | none => c :: subWithStreams (isWordChar c) cs
termination_by _ t => t.length
decreasing_by
  · simp only [List.length_cons]; omega
  · have := matchWithStreams_length hm
    simp only [List.length_cons] at this ⊢
    omega
  · simp only [List.length_cons]; omega

/-- The first maximal digit run of the text (`re.search(r'\d+', s)`). -/
def firstDigitRun : List Char → Option (List Char)
  | [] => none
  | c :: cs =>
    if isDigitChar c then some (c :: cs.takeWhile isDigitChar)
    else firstDigitRun cs

/-- One keyword alternative of
`\b(class|grade|form|jss|pp|create|new|make|add)\s*NUM\b`. -/
def matchOneKwNum (num kw t : List Char) : Option (List Char) :=
  match ciPrefix kw t with
  | none => none
  | some r =>
    match ciPrefix num (r.dropWhile isWsChar) with
    | none => none
    | some rest =>
      match rest with
      | [] => some []
      | d :: _ => if isWordChar d then none else some rest

/-- One attempted match of
`\b(class|grade|form|jss|pp|create|new|make|add)\s*NUM\b` at the head of
the text, alternatives tried in order. -/
def matchLevelKwNum (num t : List Char) : Option (List Char) :=
  (["class", "grade", "form", "jss", "pp", "create", "new", "make",
      "add"].map String.data).foldr
    (fun kw acc => (matchOneKwNum num kw t).or acc) none

theorem matchOneKwNum_length {num kw t rest : List Char} (hnum : num ≠ [])
    (h : matchOneKwNum num kw t = some rest) :
    rest.length < t.length ∨ rest = [] := by
  unfold matchOneKwNum at h
  split at h
  · exact Option.noConfusion h
  · rename_i r h1
    have hl1 := ciPrefix_length _ _ _ h1
    have hdw := length_dropWhile_le isWsChar r
    split at h
    · exact Option.noConfusion h
    · rename_i rest2 h2
      have hl2 := ciPrefix_length _ _ _ h2
      have hnl : 1 ≤ num.length := by
        cases num with
        | nil => exact absurd rfl hnum
        | cons a as => simp
      split at h
      · simp only [Option.some.injEq] at h; subst h; right; rfl
      · split at h
        · exact Option.noConfusion h
        · simp only [Option.some.injEq] at h; subst h
          left
          rename_i d ds _
          simp only [List.length_cons] at hl2 ⊢
          omega

theorem matchLevelKwNum_length {num t rest : List Char} (hnum : num ≠ [])
    (h : matchLevelKwNum num t = some rest) :
    rest.length < t.length ∨ rest = [] := by
  unfold matchLevelKwNum at h
  generalize (["class", "grade", "form", "jss", "pp", "create", "new",
    "make", "add"].map String.data) = kws at h
  induction kws with
  | nil => simp at h
  | cons kw kws ih =>
    simp only [List.foldr_cons] at h
    cases h1 : matchOneKwNum num kw t with
    | none => rw [h1, Option.none_or] at h; exact ih h
    | some r =>
      rw [h1] at h
      simp only [Option.or] at h
      simp only [Option.some.injEq] at h
      subst h
      exact matchOneKwNum_length hnum h1

/-- `re.sub(rf'\b(class|grade|form|jss|pp|create|new|make|add)\s*{num}\b',
'', text, flags=re.IGNORECASE)` as a scan. -/
def subLevelNum (num : List Char) : Bool → List Char → List Char
  | _, [] => []
  | true, c :: cs => c :: subLevelNum num (isWordChar c) cs
  | false, c :: cs =>
    if hnum : num = [] then c :: subLevelNum num (isWordChar c) cs
    else
      match hm : matchLevelKwNum num (c :: cs) with
      | some [] => []
      | some (r :: rs) => subLevelNum num true (r :: rs)
      | none => c :: subLevelNum num (isWordChar c) cs
termination_by _ t => t.length
decreasing_by
  · simp only [List.length_cons]; omega
  · simp only [List.length_cons]; omega
  · rcases matchLevelKwNum_length hnum hm with hlt | hnil
    · simp only [List.length_cons] at hlt ⊢
      omega
    · exact absurd hnil (by simp)

/-- One keyword alternative of
`\b(class|grade|form|jss|pp|create|new|make|add|streams?)\b`: the keyword
case-insensitively, then a word boundary. -/
def matchOneKwB (kw t : List Char) : Option (List Char) :=
  match ciPrefix kw t with
  | none => none
  | some r =>
    match r with
    | [] => some []
    | d :: _ => if isWordChar d then none else some r

/-- One attempted match of
`\b(class|grade|form|jss|pp|create|new|make|add|streams?)\b` at the head of
the text (`streams` before `stream` realises the greedy `s?`). -/
def matchActionKw (t : List Char) : Option (List Char) :=
  (["class", "grade", "form", "jss", "pp", "create", "new", "make",
      "add", "streams", "stream"].map String.data).foldr
    (fun kw acc => (matchOneKwB kw t).or acc) none

theorem matchOneKwB_length {kw t rest : List Char} (hkw : kw ≠ [])
    (h : matchOneKwB kw t = some rest) :
    rest.length < t.length ∨ rest = [] := by
  unfold matchOneKwB at h
  split at h
  · exact Option.noConfusion h
  · rename_i r h1
    have hl1 := ciPrefix_length _ _ _ h1
    have hkl : 1 ≤ kw.length := by
      cases kw with
      | nil => exact absurd rfl hkw
      | cons a as => simp
    split at h
    · simp only [Option.some.injEq] at h; subst h; right; rfl
    · split at h
      · exact Option.noConfusion h
      · simp only [Option.some.injEq] at h; subst h
        left
        omega

theorem matchActionKw_length {t rest : List Char}
    (h : matchActionKw t = some rest) :
    rest.length < t.length ∨ rest = [] := by
  unfold matchActionKw at h
  have hall : ∀ kw ∈ (["class", "grade", "form", "jss", "pp", "create",
      "new", "make", "add", "streams", "stream"].map String.data),
      kw ≠ ([] : List Char) := by decide
  revert h
  generalize (["class", "grade", "form", "jss", "pp", "create", "new",
    "make", "add", "streams", "stream"].map String.data) = kws at hall
  induction kws with
  | nil => intro h; simp at h
  | cons kw kws ih =>
    intro h
    simp only [List.foldr_cons] at h
    cases h1 : matchOneKwB kw t with
    | none => rw [h1, Option.none_or] at h; exact ih (fun k hk => hall k (by simp [hk])) h
    | some r =>
      rw [h1] at h
      simp only [Option.or, Option.some.injEq] at h
      subst h
      exact matchOneKwB_length (hall kw (by simp)) h1

/-- `re.sub(r'\b(class|grade|form|jss|pp|create|new|make|add|streams?)\b',
'', text, flags=re.IGNORECASE)` as a scan. -/
def subActionKws : Bool → List Char → List Char
  | _, [] => []
  | true, c :: cs => c :: subActionKws (isWordChar c) cs
  | false, c :: cs =>
    match hm : matchActionKw (c :: cs) with
    | some [] => []
    | some (r :: rs) => subActionKws true (r :: rs)
    | none => c :: subActionKws (isWordChar c) cs
termination_by _ t => t.length
decreasing_by
  · simp only [List.length_cons]; omega
  · rcases matchActionKw_length hm with hlt | hnil
    · simp only [List.length_cons] at hlt ⊢
      omega
    · exact absurd hnil (by simp)
  · simp only [List.length_cons]; omega

/-- One attempted match of the `\s+and\s+` alternative of the split regex
`r',|\s+and\s+'` at the head of the text ("and" is matched
case-sensitively: the split pattern carries no IGNORECASE flag).  Returns
the text after the match. -/
def matchWsAnd (t : List Char) : Option (List Char) :=
  match t with
  | [] => none
  | c :: cs =>
    if isWsChar c then
      match cs.dropWhile isWsChar with
      | 'a' :: 'n' :: 'd' :: r2 =>
        match r2 with
        | [] => none
        | d :: ds => if isWsChar d then some (ds.dropWhile isWsChar) else none
      | _ => none
    else none

theorem matchWsAnd_length {t rest : List Char} (h : matchWsAnd t = some rest) :
    rest.length < t.length := by
  unfold matchWsAnd at h
  split at h
  · exact Option.noConfusion h
  · rename_i c cs
    split at h
    · split at h
      · rename_i r2 heq
        have hdw : (cs.dropWhile isWsChar).length ≤ cs.length :=
          length_dropWhile_le isWsChar cs
        rw [heq] at hdw
        split at h
        · exact Option.noConfusion h
        · rename_i d ds
          split at h
          · simp only [Option.some.injEq] at h
            subst h
            have hdw2 : (ds.dropWhile isWsChar).length ≤ ds.length :=
              length_dropWhile_le isWsChar ds
            simp only [List.length_cons] at hdw ⊢
            omega
          · exact Option.noConfusion h
      · exact Option.noConfusion h
    · exact Option.noConfusion h

/-- `re.split(r',|\s+and\s+', text)`: split on every comma and every
whitespace-delimited literal `and`. -/
def splitCommasAnd (cur : List Char) (t : List Char) : List (List Char) :=
  match t with
  | [] => [cur.reverse]
  | c :: cs =>
    if c = ',' then cur.reverse :: splitCommasAnd [] cs
    else
      match hm : matchWsAnd (c :: cs) with
      | some rest => cur.reverse :: splitCommasAnd [] rest
      | none => splitCommasAnd (c :: cur) cs
termination_by t.length
decreasing_by
  · simp only [List.length_cons]; omega
  · have := matchWsAnd_length hm
    simp only [List.length_cons] at this ⊢
    omega
  · simp only [List.length_cons]; omega

/-- Python `str.split()` (split on whitespace runs, no empty words). -/
def splitWs (t : List Char) : List (List Char) :=
  match ht : t.dropWhile isWsChar with
  | [] => []
  | c :: cs =>
    (c :: cs.takeWhile (fun x => !isWsChar x)) ::
      splitWs (cs.dropWhile (fun x => !isWsChar x))
termination_by t.length
decreasing_by
  have h1 : (t.dropWhile isWsChar).length ≤ t.length :=
    length_dropWhile_le isWsChar t
  rw [ht] at h1
  have h2 : (cs.dropWhile (fun x => !isWsChar x)).length ≤ cs.length :=
    length_dropWhile_le _ cs
  simp only [List.length_cons] at h1
  omega

/-- `word.upper()` for single letters, `word.title()` otherwise, as applied
to a matched vocabulary word. -/
def normalizeStreamWord (w : List Char) : List Char :=
  if w.length = 1 then w.map upperChar else pyTitle w

/-- The `for word in words: if word in stream_keywords: ... break` loop of
`extract_all_streams`: the first vocabulary word of the fragment, already
case-normalized. -/
def findFirstKeyword : List (List Char) → Option (List Char)
  | [] => none
  | w :: ws =>
    if w ∈ stream_keywords then some (normalizeStreamWord w)
    else findFirstKeyword ws

/-- Processing of one comma/`and` fragment: strip, lower-case, skip empty
fragments, and take the first vocabulary word. -/
def streamOfPart (part : List Char) : Option (List Char) :=
  let pc := lowerList (stripChars part)
  if pc = [] then none
  else findFirstKeyword (splitWs pc)

/-- Order-preserving case-insensitive de-duplication (the `seen` set of
`extract_all_streams`). -/
def dedupCI (seen : List (List Char)) : List (List Char) → List (List Char)
  | [] => []
  | s :: ss =>
    if lowerList s ∈ seen then dedupCI seen ss
    else s :: dedupCI (lowerList s :: seen) ss

/-- `extract_all_streams(text, level_str)` from `ActionCreateClass.run`
(`academic_actions.py` lines 1144-1224). -/
def extract_all_streams (text level_str : String) : List String :=
  let clean1 := subWithStreams false text.data
  let clean2 :=
    if level_str = "" then clean1
    else
      match firstDigitRun level_str.data with
      | some num => subLevelNum num false clean1
      | none => clean1
  let clean3 := subActionKws false clean2
  let parts := splitCommasAnd [] clean3
  let found := parts.filterMap streamOfPart
  (dedupCI [] found).map fun l => ⟨l⟩

/-! ### Plain unfolding equations for the scanners (for concrete evaluation) -/

theorem subWithStreams_nil (b : Bool) : subWithStreams b [] = [] := by
  cases b <;> simp [subWithStreams]

theorem subWithStreams_true_cons (c : Char) (cs : List Char) :
    subWithStreams true (c :: cs) = c :: subWithStreams (isWordChar c) cs := by
  simp [subWithStreams]

theorem subWithStreams_false_cons (c : Char) (cs : List Char) :
    subWithStreams false (c :: cs) =
      match matchWithStreams (c :: cs) with
      | some rest => subWithStreams true rest
      | none => c :: subWithStreams (isWordChar c) cs := by
  simp only [subWithStreams]
  split
  · next heq => rw [heq]
  · next heq => rw [heq]

theorem subLevelNum_nil (num : List Char) (b : Bool) :
    subLevelNum num b [] = [] := by
  cases b <;> simp [subLevelNum]

theorem subLevelNum_true_cons (num : List Char) (c : Char) (cs : List Char) :
    subLevelNum num true (c :: cs) =
      c :: subLevelNum num (isWordChar c) cs := by
  simp [subLevelNum]

theorem subLevelNum_false_cons (num : List Char) (c : Char) (cs : List Char) :
    subLevelNum num false (c :: cs) =
      if num = [] then c :: subLevelNum num (isWordChar c) cs
      else
        match matchLevelKwNum num (c :: cs) with
        | some [] => []
        | some (r :: rs) => subLevelNum num true (r :: rs)
        | none => c :: subLevelNum num (isWordChar c) cs := by
  simp only [subLevelNum]
  by_cases hn : num = []
  · rw [dif_pos hn, if_pos hn]
  · rw [dif_neg hn, if_neg hn]
    split
    · next heq => rw [heq]
    · next heq => rw [heq]
    · next heq => rw [heq]

theorem subActionKws_nil (b : Bool) : subActionKws b [] = [] := by
  cases b <;> simp [subActionKws]

theorem subActionKws_true_cons (c : Char) (cs : List Char) :
    subActionKws true (c :: cs) = c :: subActionKws (isWordChar c) cs := by
  simp [subActionKws]

theorem subActionKws_false_cons (c : Char) (cs : List Char) :
    subActionKws false (c :: cs) =
      match matchActionKw (c :: cs) with
      | some [] => []
      | some (r :: rs) => subActionKws true (r :: rs)
      | none => c :: subActionKws (isWordChar c) cs := by
  simp only [subActionKws]
  split
  · next heq => rw [heq]
  · next heq => rw [heq]
  · next heq => rw [heq]

theorem splitCommasAnd_nil (cur : List Char) :
    splitCommasAnd cur [] = [cur.reverse] := by
  simp [splitCommasAnd]

theorem splitCommasAnd_cons (cur : List Char) (c : Char) (cs : List Char) :
    splitCommasAnd cur (c :: cs) =
      if c = ',' then cur.reverse :: splitCommasAnd [] cs
      else
        match matchWsAnd (c :: cs) with
        | some rest => cur.reverse :: splitCommasAnd [] rest
        | none => splitCommasAnd (c :: cur) cs := by
  simp only [splitCommasAnd]
  by_cases hc : c = ','
  · rw [if_pos hc, if_pos hc]
  · rw [if_neg hc, if_neg hc]
    split
    · next heq => rw [heq]
    · next heq => rw [heq]

theorem splitWs_eq (t : List Char) :
    splitWs t =
      match t.dropWhile isWsChar with
      | [] => []
      | c :: cs =>
        (c :: cs.takeWhile (fun x => !isWsChar x)) ::
          splitWs (cs.dropWhile (fun x => !isWsChar x)) := by
  rw [splitWs]
  split
  · next heq => rw [heq]
  · next heq => rw [heq]

/-! ### Structural facts about de-duplication and the vocabulary -/

theorem dedupCI_mem_sub {seen l : List (List Char)} {x : List Char}
    (hx : x ∈ dedupCI seen l) : x ∈ l := by
  induction l generalizing seen with
  | nil => simp [dedupCI] at hx
  | cons s ss ih =>
    simp only [dedupCI] at hx
    by_cases hs : lowerList s ∈ seen
    · rw [if_pos hs] at hx
      exact List.mem_cons_of_mem _ (ih hx)
    · rw [if_neg hs] at hx
      rcases List.mem_cons.mp hx with h | h
      · exact h ▸ List.mem_cons_self _ _
      · exact List.mem_cons_of_mem _ (ih h)

theorem dedupCI_not_seen {seen l : List (List Char)} {x : List Char}
    (hx : x ∈ dedupCI seen l) : lowerList x ∉ seen := by
  induction l generalizing seen with
  | nil => simp [dedupCI] at hx
  | cons s ss ih =>
    simp only [dedupCI] at hx
    by_cases hs : lowerList s ∈ seen
    · rw [if_pos hs] at hx
      exact ih hx
    · rw [if_neg hs] at hx
      rcases List.mem_cons.mp hx with h | h
      · subst h; exact hs
      · intro hmem
        exact ih h (List.mem_cons_of_mem _ hmem)

theorem dedupCI_pairwise (seen l : List (List Char)) :
    (dedupCI seen l).Pairwise (fun a b => lowerList a ≠ lowerList b) := by
  induction l generalizing seen with
  | nil => simp [dedupCI]
  | cons s ss ih =>
    simp only [dedupCI]
    by_cases hs : lowerList s ∈ seen
    · rw [if_pos hs]; exact ih seen
    · rw [if_neg hs]
      refine List.Pairwise.cons ?_ (ih (lowerList s :: seen))
      intro b hb heq
      exact dedupCI_not_seen hb (heq ▸ List.mem_cons_self _ _)

theorem findFirstKeyword_vocab {ws : List (List Char)} {w : List Char}
    (h : findFirstKeyword ws = some w) :
    ∃ v ∈ stream_keywords, w = normalizeStreamWord v := by
  induction ws with
  | nil => simp [findFirstKeyword] at h
  | cons x xs ih =>
    simp only [findFirstKeyword] at h
    by_cases hx : x ∈ stream_keywords
    · rw [if_pos hx, Option.some.injEq] at h
      exact ⟨x, hx, h.symm⟩
    · rw [if_neg hx] at h
      exact ih h

theorem streamOfPart_vocab {part w : List Char}
    (h : streamOfPart part = some w) :
    ∃ v ∈ stream_keywords, w = normalizeStreamWord v := by
  unfold streamOfPart at h
  by_cases hp : lowerList (stripChars part) = []
  · simp only [hp, if_pos] at h
    simp at h
  · rw [if_neg hp] at h
    exact findFirstKeyword_vocab h

theorem extract_all_streams_pairwise (text level_str : String) :
    (extract_all_streams text level_str).Pairwise
      (fun a b => lowerList a.data ≠ lowerList b.data) := by
  unfold extract_all_streams
  rw [List.pairwise_map]
  exact dedupCI_pairwise _ _

theorem extract_all_streams_vocab (text level_str : String) :
    ∀ s ∈ extract_all_streams text level_str,
      ∃ v ∈ stream_keywords, s.data = normalizeStreamWord v := by
  intro s hs
  unfold extract_all_streams at hs
  rcases List.mem_map.mp hs with ⟨l, hl, hls⟩
  have hfound := dedupCI_mem_sub hl
  rcases List.mem_filterMap.mp hfound with ⟨part, _, hpart⟩
  rcases streamOfPart_vocab hpart with ⟨v, hv, hw⟩
  exact ⟨v, hv, by rw [← hls]; exact hw⟩

/-- C7 counterexample: `extract_all_streams` does NOT collect every
vocabulary word of every fragment.  The text
`"create grade 7 with streams blue red"` leaves the single fragment
`"blue red"` after cleaning, whose words `blue` and `red` are both in the
stream vocabulary, yet only `["Blue"]` is returned: the per-fragment loop
breaks after the first matching word (`break` at `academic_actions.py`
line 1221), so `"Red"` is dropped. -/
theorem C7_extract_all_streams_counterexample :
    extract_all_streams "create grade 7 with streams blue red" "7"
        = ["Blue"] ∧
      "Red" ∉ extract_all_streams "create grade 7 with streams blue red" "7" := by
  have h : extract_all_streams "create grade 7 with streams blue red" "7"
      = ["Blue"] := by
    simp [extract_all_streams, subWithStreams_nil, subWithStreams_true_cons,
      subWithStreams_false_cons, subLevelNum_nil, subLevelNum_true_cons,
      subLevelNum_false_cons, subActionKws_nil, subActionKws_true_cons,
      subActionKws_false_cons, splitCommasAnd_nil, splitCommasAnd_cons,
      splitWs_eq, matchWithStreams, streamTailOk, ciPrefix, matchOneKwNum,
      matchLevelKwNum, matchOneKwB, matchActionKw, matchWsAnd, firstDigitRun,
      findFirstKeyword, streamOfPart, dedupCI, normalizeStreamWord, pyTitle,
      pyTitleAux, stripChars, lowerList, lowerChar, upperChar, isWsChar,
      isWordChar, isDigitChar, isAlphaChar, stream_keywords, Char.ofNat,
      Nat.isValidChar, List.dropWhile, List.takeWhile, String.data]
  refine ⟨h, ?_⟩
  rw [h]
  simp

/-- C7 (amended): `extract_all_streams` strips the class/level reference and
command keywords, splits on commas and the word `and`, collects from each
resulting fragment only the FIRST word belonging to the closed stream
vocabulary, case-normalizes it (single letters uppercased, other words
title-cased), and de-duplicates case-insensitively preserving first-seen
order.  Conjuncts: (1) the spec's example
`extract_all_streams "create grade 7 with streams blue and red" "7"
= ["Blue", "Red"]`; (2) a repeated `blue` is not duplicated; (3) for every
input, the output is pairwise case-insensitively distinct and every output
element is the case-normalization of a vocabulary word. -/
theorem C7_extract_all_streams_amended :
    extract_all_streams "create grade 7 with streams blue and red" "7"
        = ["Blue", "Red"] ∧
      extract_all_streams "create grade 7 with streams blue and red and blue" "7"
        = ["Blue", "Red"] ∧
      ∀ text level_str : String,
        (extract_all_streams text level_str).Pairwise
            (fun a b => lowerList a.data ≠ lowerList b.data) ∧
          ∀ s ∈ extract_all_streams text level_str,
            ∃ v ∈ stream_keywords, s.data = normalizeStreamWord v := by
  refine ⟨?_, ?_, fun text level_str =>
    ⟨extract_all_streams_pairwise text level_str,
      extract_all_streams_vocab text level_str⟩⟩
  · simp [extract_all_streams, subWithStreams_nil, subWithStreams_true_cons,
      subWithStreams_false_cons, subLevelNum_nil, subLevelNum_true_cons,
      subLevelNum_false_cons, subActionKws_nil, subActionKws_true_cons,
      subActionKws_false_cons, splitCommasAnd_nil, splitCommasAnd_cons,
      splitWs_eq, matchWithStreams, streamTailOk, ciPrefix, matchOneKwNum,
      matchLevelKwNum, matchOneKwB, matchActionKw, matchWsAnd, firstDigitRun,
      findFirstKeyword, streamOfPart, dedupCI, normalizeStreamWord, pyTitle,
      pyTitleAux, stripChars, lowerList, lowerChar, upperChar, isWsChar,
      isWordChar, isDigitChar, isAlphaChar, stream_keywords, Char.ofNat,
      Nat.isValidChar, List.dropWhile, List.takeWhile, String.data]
  · simp [extract_all_streams, subWithStreams_nil, subWithStreams_true_cons,
      subWithStreams_false_cons, subLevelNum_nil, subLevelNum_true_cons,
      subLevelNum_false_cons, subActionKws_nil, subActionKws_true_cons,
      subActionKws_false_cons, splitCommasAnd_nil, splitCommasAnd_cons,
      splitWs_eq, matchWithStreams, streamTailOk, ciPrefix, matchOneKwNum,
      matchLevelKwNum, matchOneKwB, matchActionKw, matchWsAnd, firstDigitRun,
      findFirstKeyword, streamOfPart, dedupCI, normalizeStreamWord, pyTitle,
      pyTitleAux, stripChars, lowerList, lowerChar, upperChar, isWsChar,
      isWordChar, isDigitChar, isAlphaChar, stream_keywords, Char.ofNat,
      Nat.isValidChar, List.dropWhile, List.takeWhile, String.data]

/-- C7 witness: the amended theorem applied at the spec's example input.
The universally quantified conjunct, instantiated at that input and at the
output element `"Blue"`, produces a vocabulary word whose case-normalization
is `Blue`. -/
theorem C7_extract_all_streams_amended_witness :
    ∃ v ∈ stream_keywords, ("Blue" : String).data = normalizeStreamWord v := by
  have h := C7_extract_all_streams_amended
  refine (h.2.2 "create grade 7 with streams blue and red" "7").2 "Blue" ?_
  rw [h.1]
  simp

/-! ## `normalize_class_name` (`student_actions.py` lines 40-62) -/

/-- One grade-pattern alternative of
`^(grade|form|jss|pp|class)\s*(\d+)([a-zA-Z])$` (case-insensitive): the
keyword, optional whitespace, at least one digit, exactly one letter, end of
string.  On a match, the output is
`f"{prefix.title()} {number}{letter.upper()}"` built from the matched
original-case slices. -/
def matchGradeNumLetterKw (kw t : List Char) : Option (List Char) :=
  match ciPrefix kw t with
  | none => none
  | some r =>
    let ws := r.dropWhile isWsChar
    let ds := ws.takeWhile isDigitChar
    let rest := ws.dropWhile isDigitChar
    if ds = [] then none
    else
      match rest with
      | [l] =>
        if isAlphaChar l then
          some (pyTitle (t.take kw.length) ++ ' ' :: (ds ++ [upperChar l]))
        else none
      | _ => none

/-- The grade pattern of `normalize_class_name`, alternatives in the order of
the source regex. -/
def matchGradeNumLetter (t : List Char) : Option (List Char) :=
  (["grade", "form", "jss", "pp", "class"].map String.data).foldr
    (fun kw acc => (matchGradeNumLetterKw kw t).or acc) none

/-- The simple pattern `^(\d+)([a-zA-Z])$` of `normalize_class_name`:
`"8a" -> "8A"`. -/
def matchNumLetter (t : List Char) : Option (List Char) :=
  let ds := t.takeWhile isDigitChar
  let rest := t.dropWhile isDigitChar
  if ds = [] then none
  else
    match rest with
    | [l] => if isAlphaChar l then some (ds ++ [upperChar l]) else none
    | _ => none

/-- `normalize_class_name` from `student_actions.py` lines 40-62. -/
def normalize_class_name (s : String) : String :=
  if s = "" then s
  else
    let t := stripChars s.data
    match matchGradeNumLetter t with
    | some r => ⟨r⟩
    | none =>
      match matchNumLetter t with
      | some r => ⟨r⟩
      | none => ⟨pyTitle t⟩

/-! ## `ValidateStudentCreationForm.validate_student_name`
(`student_actions.py` lines 1438-1566) -/

/-- The `clear_interruptions` intent list (lines 1464-1469). -/
def clear_interruptions : List String :=
  ["goodbye", "greet", "cancel_form", "stop_form", "restart_form",
   "list_students", "list_classes", "check_academic_setup",
   "create_class", "create_academic_year", "search_student"]

/-- One alternative `w1\s+w2\s+...\s+wn\s+` of the name-prefix regex: each
word matched case-insensitively and followed by at least one whitespace
character (greedily consumed). -/
def matchWordsWs : List (List Char) → List Char → Option (List Char)
  | [], t => some t
  | w :: ws, t =>
    match ciPrefix w t with
    | none => none
    | some r =>
      match r with
      | [] => none
      | c :: cs =>
        if isWsChar c then matchWordsWs ws (cs.dropWhile isWsChar) else none

/-- The alternative `it'?s\s+` of the name-prefix regex (the optional
apostrophe, code point 39, is consumed greedily). -/
def matchIts (t : List Char) : Option (List Char) :=
  match ciPrefix ['i', 't'] t with
  | none => none
  | some r =>
    let r2 := match r with
      | c :: rest => if c.toNat = 39 then rest else r
      | [] => r
    match ciPrefix ['s'] r2 with
    | none => none
    | some r3 =>
      match r3 with
      | [] => none
      | c :: cs => if isWsChar c then some (cs.dropWhile isWsChar) else none

/-- `re.sub(r'^(the\s+student\s+name\s+is\s+|student\s+name\s+is\s+|name\s+is\s+|it'?s\s+|the\s+name\s+is\s+|my\s+name\s+is\s+)', '', clean_text, flags=re.IGNORECASE)`:
the anchored alternatives tried in order; the result is the text after the
removed prefix. -/
def matchNamePrefix (t : List Char) : Option (List Char) :=
  (matchWordsWs (["the", "student", "name", "is"].map String.data) t).or
    ((matchWordsWs (["student", "name", "is"].map String.data) t).or
      ((matchWordsWs (["name", "is"].map String.data) t).or
        ((matchIts t).or
          ((matchWordsWs (["the", "name", "is"].map String.data) t).or
            (matchWordsWs (["my", "name", "is"].map String.data) t)))))

/-- `re.match(r'^(kw1|kw2|...)\s', text)`: one of the keywords at the start,
followed by one whitespace character. -/
def kwThenWs (kw t : List Char) : Bool :=
  match ciPrefix kw t with
  | some (c :: _) => isWsChar c
  | _ => false

/-- `re.match(r'^(kw1|kw2|...)\s*$', text)`: one of the keywords at the
start, followed only by whitespace to the end. -/
def kwWsEnd (kw t : List Char) : Bool :=
  match ciPrefix kw t with
  | some r => r.all isWsChar
  | none => false

/-- The `command_patterns` check of `validate_student_name` (lines
1491-1503), applied to the lower-cased cleaned text (the matchers are
case-insensitive, so lowering is implicit). -/
def isCommandText (t : List Char) : Bool :=
  (["create", "add", "new", "make", "list", "show", "delete",
      "remove"].map String.data).any (fun kw => kwThenWs kw t) ||
    (["cancel", "stop", "quit", "exit", "help"].map String.data).any
      (fun kw => kwWsEnd kw t) ||
    (["yes", "no", "ok", "okay"].map String.data).any
      (fun kw => kwWsEnd kw t)

/-- The three distinct `dispatcher.utter_message` sites of
`validate_student_name`: the too-short rejection (line 1520), the
one-name-part rejection (line 1540, carrying the candidate), and the
no-valid-input rejection (line 1558). -/
inductive VMsg
  | fullNameTooShort
  | fullNameOnePart (candidate : String)
  | provideFullName
deriving DecidableEq

/-- `validate_student_name(slot_value, dispatcher, tracker, domain)` from
`student_actions.py` lines 1438-1566, as a function of the turn's intent,
the raw message text and the proposed slot value.  Returns the value the
validation dict assigns to `student_name` (the dict's only key) and the
messages uttered. -/
def validate_student_name (intent message_text : String)
    (slot_value : Option String) : Option String × List VMsg :=
  let mt := stripChars message_text.data
  if intent ∈ clear_interruptions then (none, [])
  else
    let fromText : Option (List Char) :=
      if mt ≠ [] then
        let ct := match matchNamePrefix mt with
          | some r => stripChars r
          | none => mt
        if !isCommandText ct && ct ≠ [] && !pyIsDigit ct then some ct
        else none
      else none
    let candidate : Option (List Char) :=
      match fromText, slot_value with
      | none, some sv => if sv ≠ "" then some (stripChars sv.data) else none
      | c, _ => c
    match candidate with
    | some c =>
      if c ≠ [] then
        if c.length < 3 then (none, [.fullNameTooShort])
        else
          let parts := splitWs c
          if parts.length < 2 then (none, [.fullNameOnePart ⟨c⟩])
          else (some ⟨c⟩, [])
      else (none, [.provideFullName])
    | none => (none, [.provideFullName])

/-- The student-creation form's slots. -/
structure StudentSlots where
  admission_no : Option String
  student_name : Option String
  class_name : Option String
deriving DecidableEq

/-- Applying the validation dict returned by `validate_student_name` to the
tracker: the dict contains exactly the `student_name` key, so only that slot
is written. -/
def applyNameValidation (s : StudentSlots) (intent message_text : String)
    (slot_value : Option String) : StudentSlots :=
  { s with
    student_name := (validate_student_name intent message_text slot_value).1 }

/-- `" ".join(parts)`. -/
def joinSpace : List (List Char) → List Char
  | [] => []
  | [w] => w
  | w :: ws => w ++ ' ' :: joinSpace ws

/-- The name split of `ActionCreateStudent.run` (lines 113-127): first token
is the given name, the remaining tokens joined by spaces are the family
name.  The source's three branches (2 parts / 3 parts / more) all compute
exactly this. -/
def nameFirstLast (name_parts : List (List Char)) : List Char × List Char :=
  match name_parts with
  | [] => ([], [])
  | p :: rest => (p, joinSpace rest)

/-! ## `ActionCreateStudent.run` (`student_actions.py` lines 65-397) -/

/-- The turn metadata read at the top of each action's `run`. -/
structure Metadata where
  auth_token : Option String
  school_id : Option String
deriving DecidableEq

/-- Python truthiness of an optional string slot or metadata field. -/
def truthyS : Option String → Bool
  | none => false
  | some s => s ≠ ""

/-- A `SlotSet(slot, value)` event. -/
abbrev SlotEvent := String × Option String

/-- The `current_year` object of the academic-setup response. -/
structure YearInfo where
  year : Nat
  id : Nat
deriving DecidableEq

/-- The `current_term` object of the academic-setup response. -/
structure TermInfo where
  title : String
  id : Nat
deriving DecidableEq

/-- One element of the `GET /classes` response as `ActionCreateStudent.run`
reads it. -/
structure ApiClass where
  id : Nat
  name : String
  academic_year : Nat
deriving DecidableEq

/-- The backend responses `ActionCreateStudent.run` can observe, one field
per request it may issue. -/
structure StudentEnv where
  setupStatus : Nat
  setup_complete : Bool
  current_year : Option YearInfo
  current_term : Option TermInfo
  classStatus : Nat
  classes : List ApiClass
  createClassResult : Option Nat
  studentStatus : Nat
deriving DecidableEq

/-- The API requests `ActionCreateStudent.run` issues, in order. -/
inductive ApiCall
  | getSetup
  | getClasses (search : String)
  | postClass (name level : String) (year : Nat)
  | postStudent (admission first last : String) (classId : Nat)
deriving DecidableEq

/-- The `dispatcher.utter_message` sites of `ActionCreateStudent.run`, one
constructor per site (response-payload details such as error `detail`
strings are elided). -/
inductive SMsg
  | authRequired
  | missingInfo
  | fullNameRequired
  | setupRequired
  | setupIncomplete (missing : List String)
  | classCheckError
  | classCreateFailed (class_name : String) (year : Nat)
  | studentCreated (year : Nat) (term first last admission class_name : String)
      (classWasCreated : Bool)
  | duplicateAdmission (admission : String)
  | validationError
  | badRequest
  | permissionDenied
  | otherError
  | unexpectedError
deriving DecidableEq

/-- What a `run` produces: the uttered messages, the returned `SlotSet`
events, and the trace of API requests issued. -/
structure RunResult where
  messages : List SMsg
  events : List SlotEvent
  api_calls : List ApiCall
deriving DecidableEq

/-- The `[SlotSet(admission_no/student_name/class_name, None)]` list used by
every terminal branch of the `try` block (lines 157-161 and onward). -/
def clearAllStudent : List SlotEvent :=
  [("admission_no", none), ("student_name", none), ("class_name", none)]

/-- The status-code dispatch on the `POST /students` response
(`student_actions.py` lines 280-382): every branch utters its message and
falls through to the final clear-all return. -/
def studentPostOutcome (status year : Nat)
    (term first last admission class_name : String) (wasCreated : Bool)
    (classId : Nat) (calls : List ApiCall) : RunResult :=
  let calls := calls ++ [.postStudent admission first last classId]
  if status = 201 then
    ⟨[.studentCreated year term first last admission class_name wasCreated],
      clearAllStudent, calls⟩
  else if status = 409 then
    ⟨[.duplicateAdmission admission], clearAllStudent, calls⟩
  else if status = 422 then
    ⟨[.validationError], clearAllStudent, calls⟩
  else if status = 400 then
    ⟨[.badRequest], clearAllStudent, calls⟩
  else if status = 403 then
    ⟨[.permissionDenied], clearAllStudent, calls⟩
  else
    ⟨[.otherError], clearAllStudent, calls⟩

/-- The `try` block of `ActionCreateStudent.run` (lines 130-382): the
academic-setup probe, the class lookup, the automatic class creation, and
the student POST.  The select-then-subscript
`setup_data["current_year"]["year"]` on a missing object raises in Python
and is caught by the final `except Exception` handler (line 391), which is
the `unexpectedError` branch here. -/
def createStudentApiPhase (admission_no first_name last_name
    class_name : String) (env : StudentEnv) : RunResult :=
  if env.setupStatus ≠ 200 then
    ⟨[.setupRequired], clearAllStudent, [.getSetup]⟩
  else if !env.setup_complete then
    ⟨[.setupIncomplete
        ((if env.current_year.isNone then ["Academic Year"] else []) ++
          (if env.current_term.isNone then ["Academic Term"] else []))],
      clearAllStudent, [.getSetup]⟩
  else
    match env.current_year, env.current_term with
    | some yi, some ti =>
      if env.classStatus ≠ 200 then
        ⟨[.classCheckError], clearAllStudent,
          [.getSetup, .getClasses class_name]⟩
      else
        match env.classes.find? (fun cls =>
            decide (lowerList (normalize_class_name cls.name).data
                = lowerList class_name.data
              ∧ cls.academic_year = yi.year)) with
        | some cls =>
          studentPostOutcome env.studentStatus yi.year ti.title first_name
            last_name admission_no class_name false cls.id
            [.getSetup, .getClasses class_name]
        | none =>
          match env.createClassResult with
          | some newId =>
            studentPostOutcome env.studentStatus yi.year ti.title first_name
              last_name admission_no class_name true newId
              [.getSetup, .getClasses class_name,
                .postClass class_name class_name yi.year]
          | none =>
            ⟨[.classCreateFailed class_name yi.year], clearAllStudent,
              [.getSetup, .getClasses class_name,
                .postClass class_name class_name yi.year]⟩
    | _, _ => ⟨[.unexpectedError], clearAllStudent, [.getSetup]⟩

/-- `ActionCreateStudent.run` from `student_actions.py` lines 65-397, as a
function of the turn metadata, the tracker slots and the backend
responses. -/
def runCreateStudent (meta : Metadata) (slots : StudentSlots)
    (env : StudentEnv) : RunResult :=
  if !truthyS meta.auth_token then
    ⟨[.authRequired], [], []⟩
  else if !truthyS slots.student_name || !truthyS slots.class_name
      || !truthyS slots.admission_no then
    ⟨[.missingInfo], [], []⟩
  else
    let admission_no := slots.admission_no.getD ""
    let student_name := slots.student_name.getD ""
    let class_name := normalize_class_name (slots.class_name.getD "")
    let name_parts := splitWs student_name.data
    if name_parts.length < 2 then
      ⟨[.fullNameRequired],
        [("student_name", none), ("admission_no", none), ("class_name", none)],
        []⟩
    else
      createStudentApiPhase admission_no ⟨(nameFirstLast name_parts).1⟩
        ⟨(nameFirstLast name_parts).2⟩ class_name env

/-! ## The classes backend (`app/api/routers/classes.py`) -/

/-- A row of the `classes` table (`app/models/class_model.py`); the model
has no uniqueness constraint on `(school_id, level, academic_year)`. -/
structure StoredClass where
  id : Nat
  name : String
  level : String
  academic_year : Nat
  stream : Option String
deriving DecidableEq

/-- A row of the `class_streams` table (`app/models/class_stream.py`). -/
structure StoredStream where
  class_id : Nat
  name : String
deriving DecidableEq

/-- One school's slice of the database.  `classes` is kept in creation
order; a SQL `SELECT` without `ORDER BY` is modelled as returning this
order. -/
structure Store where
  classes : List StoredClass
  streams : List StoredStream
  nextId : Nat
deriving DecidableEq

/-- Lexicographic comparison of char lists by code point, the order SQL
sorts the lower-cased columns in. -/
def charListLe : List Char → List Char → Bool
  | [], _ => true
  | _ :: _, [] => false
  | a :: as, b :: bs =>
    if a.toNat < b.toNat then true
    else if b.toNat < a.toNat then false
    else charListLe as bs

/-- `ORDER BY lower(level), lower(name)` of `get_classes` (line 124). -/
def classSortLe (a b : StoredClass) : Bool :=
  if lowerList a.level.data = lowerList b.level.data then
    charListLe (lowerList a.name.data) (lowerList b.name.data)
  else charListLe (lowerList a.level.data) (lowerList b.level.data)

/-- Does the list start with the given needle? -/
def listStartsWith : List Char → List Char → Bool
  | _, [] => true
  | [], _ :: _ => false
  | h :: hs, n :: ns => h == n && listStartsWith hs ns

/-- Is the needle a contiguous sublist of the haystack? -/
def listInfix (needle : List Char) : List Char → Bool
  | [] => needle.isEmpty
  | c :: t => listStartsWith (c :: t) needle || listInfix needle t

/-- `func.lower(col).like(func.lower('%pat%'))`: case-insensitive substring
test. -/
def ciContains (hay pat : String) : Bool :=
  listInfix (lowerList pat.data) (lowerList hay.data)

/-- `GET /classes` (`classes.py` lines 85-184) with the default pagination
the actions use (`page=1`, `limit=20`): filter by academic year and by the
search term (name or level, case-insensitive contains), then sort by
`(lower(level), lower(name))`.  Ties keep creation order (the sort is
stable). -/
def get_classes (search : Option String) (academic_year : Option Nat)
    (store : Store) : List StoredClass :=
  let q := match academic_year with
    | some y => store.classes.filter (fun (c : StoredClass) =>
        c.academic_year == y)
    | none => store.classes
  let q := match search with
    | some s => q.filter (fun (c : StoredClass) =>
        ciContains c.name s || ciContains c.level s)
    | none => q
  (q.insertionSort (fun a b => classSortLe a b = true)).take 20

/-- What `POST /classes/level-stream` returns to its caller: the status
code, the `id` of the `ClassOut` payload on 201, the updated store, and
whether the duplicate warning was logged. -/
structure LSResponse where
  status : Nat
  classId : Option Nat
  store : Store
  warned : Bool
deriving DecidableEq

/-- `create_or_add_stream` (`POST /classes/level-stream`, `classes.py` lines
397-552).  The stream-adding branch runs only when a base class was found
AND a stream name was supplied; otherwise — including when the base class
already exists but `stream` is `None` — a new base class row is inserted
and returned with 201. -/
def create_or_add_stream (level : String) (stream_name : Option String)
    (academic_year : Nat) (store : Store) : LSResponse :=
  let existing_level_class :=
    (store.classes.filter (fun (c : StoredClass) =>
      decide (c.level = level ∧ c.academic_year = academic_year
        ∧ c.stream = none))).head?
  let found : Option StoredClass × Bool :=
    match existing_level_class with
    | some c => (some c, false)
    | none =>
      match store.classes.filter (fun (c : StoredClass) =>
          decide (c.level = level ∧ c.academic_year = academic_year)) with
      | [] => (none, false)
      | c :: rest => (some c, rest ≠ [])
  match found.1, stream_name with
  | some c, some sn =>
    if store.streams.any (fun st =>
        decide (st.class_id = c.id
          ∧ lowerList st.name.data = lowerList sn.data)) then
      ⟨409, none, store, found.2⟩
    else
      ⟨201, some c.id,
        { store with streams := store.streams ++ [⟨c.id, ⟨pyTitle sn.data⟩⟩] },
        found.2⟩
  | _, _ =>
    let newC : StoredClass := ⟨store.nextId, level, level, academic_year, none⟩
    let store1 := { store with
      classes := store.classes ++ [newC], nextId := store.nextId + 1 }
    match stream_name with
    | some sn =>
      ⟨201, some newC.id,
        { store1 with
          streams := store1.streams ++ [⟨newC.id, ⟨pyTitle sn.data⟩⟩] },
        found.2⟩
    | none => ⟨201, some newC.id, store1, found.2⟩

/-! ## `ActionCreateClass.run` Step 1 and the stream loop
(`academic_actions.py` lines 1376-1495) -/

/-- The fetch of the 409 branch of Step 1 (lines 1400-1417): `GET
/classes?search=level&academic_year=year`, then the first returned class
with exactly matching level and year. -/
def fetchClassId (level : String) (year : Nat) (store : Store) : Option Nat :=
  ((get_classes (some level) (some year) store).find? (fun c =>
    decide (c.level = level ∧ c.academic_year = year))).map (fun c => c.id)

/-- Step 1 of Scenario 2 (lines 1376-1417): POST the base class payload
(`stream=None`) to `/classes/level-stream`; on 201 use the returned id, on
409 fetch the class list and pick the first level/year match. -/
def resolveBaseClass (level : String) (year : Nat) (store : Store) :
    Option Nat × Store :=
  let r := create_or_add_stream level none year store
  if r.status = 201 then (r.classId, r.store)
  else if r.status = 409 then (fetchClassId level year r.store, r.store)
  else (none, r.store)

/-- The duplicate-pick of `ActionAddStreamToClass.run` (lines 2156-2166):
fetch `GET /classes?search=class_name&academic_year=year` and take
`classes[0]`. -/
def pickTargetClass (class_name : String) (year : Nat) (store : Store) :
    Option StoredClass :=
  (get_classes (some class_name) (some year) store).head?

/-- The per-stream loop of `ActionCreateClass.run` (lines 1441-1457) /
`ActionAddStreamToClass.run` (lines 2173-2186): each requested stream is
POSTed on its own and bucketed by its own response's status code — 201 to
`added`, 409 to `skipped` (already existed), anything else to `failed`. -/
def streamLoop (resp : String → Nat) (streams : List String) :
    List String × List String × List String :=
  streams.foldl (fun acc s =>
    if resp s = 201 then (acc.1 ++ [s], acc.2.1, acc.2.2)
    else if resp s = 409 then (acc.1, acc.2.1 ++ [s], acc.2.2)
    else (acc.1, acc.2.1, acc.2.2 ++ [s])) ([], [], [])

/-- The response-message builder of `ActionCreateClass.run` (lines
1459-1495), one constructor per `messages.append` site. -/
inductive CMsg
  | addedOne (level stream : String) (year : Nat)
  | addedOneEnroll (level stream : String)
  | addedMany (level : String) (streams : List String) (year : Nat)
  | addedManyEnroll
  | skippedExist (streams : List String) (level : String)
  | failedAdd (streams : List String)
  | noneSucceeded (level : String)
deriving DecidableEq

/-- Builds the single response message's parts (lines 1459-1495): each
non-empty bucket contributes its own distinct part, and the parts are
joined into one `utter_message`. -/
def buildStreamMessages (level : String) (year : Nat)
    (added skipped failed : List String) : List CMsg :=
  (match added with
    | [] => []
    | [s] => [.addedOne level s year, .addedOneEnroll level s]
    | _ => [.addedMany level added year, .addedManyEnroll]) ++
  (if skipped ≠ [] then [.skippedExist skipped level] else []) ++
  (if failed ≠ [] then [.failedAdd failed] else []) ++
  (if added = [] ∧ skipped = [] then [.noneSucceeded level] else [])

/-- Modelled from the spec: `POST /classes/{class_id}/streams` returns 201
and records the stream when it is new for the class, and 409 when a stream
of that name already exists for it.  The router module
(`app/api/routers/class_streams.py`, included by `app/main.py`) is not
under `src/`; the `ClassStream` model's `UniqueConstraint("class_id",
"name")` is (`app/models/class_stream.py`). -/
def postStreamStatus (existing : List String) (name : String) : Nat :=
  if existing.any (fun e => lowerList e.data == lowerList name.data) then 409
  else 201

/-! ## `ActionHandleFormInterruption.run`
(`student_actions.py` lines 1822-1865) -/

/-- The `action_map` of intents to their handler actions (lines 1833-1840). -/
def action_map : List (String × String) :=
  [("list_classes", "action_list_classes"),
   ("list_students", "action_list_students"),
   ("check_academic_setup", "action_check_academic_setup"),
   ("list_academic_terms", "action_list_academic_terms"),
   ("get_current_term", "action_get_current_term"),
   ("ask_help", "action_help")]

/-- The `slot_prompts` re-prompt texts (lines 1853-1857). -/
def slot_prompts : List (String × String) :=
  [("student_name", "Great! Now, what's the student's name?"),
   ("admission_no",
     "Thanks! What's the admission number? (Say 'auto generate' to create one)"),
   ("class_name",
     "Perfect! Which class should the student join? (e.g., 'Grade 4', '8A')")]

/-- `ActionHandleFormInterruption.run` (lines 1822-1865): looks the intent
up in `action_map` (the result is unused — the body is `pass`), re-prompts
for the requested slot, and returns no events. -/
def handleFormInterruption (intent : String)
    (requested_slot : Option String) : List String × List SlotEvent :=
  let _action_name := action_map.lookup intent
  match requested_slot with
  | some rs =>
    if rs ≠ "" then
      ([(slot_prompts.lookup rs).getD ("Let's continue with the " ++ rs)], [])
    else ([], [])
  | none => ([], [])

/-- Replaying a list of `SlotSet` events onto the student form's slots. -/
def applyStudentEvents (s : StudentSlots) (events : List SlotEvent) :
    StudentSlots :=
  events.foldl (fun s kv =>
    if kv.1 = "student_name" then { s with student_name := kv.2 }
    else if kv.1 = "admission_no" then { s with admission_no := kv.2 }
    else if kv.1 = "class_name" then { s with class_name := kv.2 }
    else s) s

/-- The slot-filling machine's state while a form is active. -/
structure FormState where
  requested_slot : Option String
  slots : StudentSlots
deriving DecidableEq

/-- The outcome of an interruption turn: which handler serviced the
interrupting intent, the messages uttered, and the form state afterwards. -/
structure InterruptionOutcome where
  servicedHandler : Option String
  messages : List String
  after : FormState
deriving DecidableEq

/-- Modelled from the spec: on a recognized interruption intent during form
collection, the conversation policy services the intent via its own handler
(the action `action_map` names) and then runs
`action_handle_form_interruption`; the form stays active with the same
requested slot, its slots updated only by the returned events.  The
re-prompt and the empty event list come from
`ActionHandleFormInterruption.run` in `src/`; the policy that triggers the
mapped handler (the Rasa rules) is not under `src/`. -/
def serviceInterruption (intent : String) (st : FormState) :
    InterruptionOutcome :=
  let handler := action_map.lookup intent
  let r := handleFormInterruption intent st.requested_slot
  { servicedHandler := handler,
    messages := r.1,
    after := { st with slots := applyStudentEvents st.slots r.2 } }

/-- Recognizer for the student-creation POST in an API trace. -/
def isPostStudent : ApiCall → Bool
  | .postStudent _ _ _ _ => true
  | _ => false

/-! ## Concrete stores and environments used in the claim theorems -/

/-- A school with no classes yet. -/
def emptyStore : Store := ⟨[], [], 1⟩

/-- Two duplicate base classes for level `Class 8` / year 2025: id 1 named
`Class 8` was created first, id 2 named `Aclass 8` second. -/
def storeDup : Store :=
  ⟨[⟨1, "Class 8", "Class 8", 2025, none⟩,
    ⟨2, "Aclass 8", "Class 8", 2025, none⟩], [], 3⟩

/-- Backend responses: academic setup is missing (the setup probe fails). -/
def envSetupFail : StudentEnv := ⟨500, false, none, none, 200, [], none, 201⟩

/-- Backend responses: complete setup for 2025/Term 1, class `8A` (id 5)
exists, and the student POST answers 409 (duplicate admission number). -/
def envDup : StudentEnv :=
  ⟨200, true, some ⟨2025, 10⟩, some ⟨"Term 1", 20⟩, 200, [⟨5, "8A", 2025⟩],
    none, 409⟩

/-- Backend responses: like `envDup` but the student POST answers 201. -/
def envOk : StudentEnv :=
  ⟨200, true, some ⟨2025, 10⟩, some ⟨"Term 1", 20⟩, 200, [⟨5, "8A", 2025⟩],
    none, 201⟩

/-- C6: while the form is collecting `admission_no` and the turn's intent is
`list_classes`, the interruption outcome services the intent via
`action_list_classes`, re-prompts for the admission number, and leaves the
collected `student_name` slot (and the other slots, and the requested slot)
unchanged.  The dispatch of the mapped handler is modelled from the spec;
the re-prompt text and the empty event list come from
`ActionHandleFormInterruption.run`. -/
theorem C6_interruption_list_classes (adm name cls : Option String) :
    serviceInterruption "list_classes"
        ⟨some "admission_no", ⟨adm, name, cls⟩⟩ =
      ⟨some "action_list_classes",
        ["Thanks! What's the admission number? (Say 'auto generate' to create one)"],
        ⟨some "admission_no", ⟨adm, name, cls⟩⟩⟩ := by
  rfl

/-- C1: resolving the base class for `(level="Class 8", academic_year=2025,
stream=None)` twice in a row against an initially empty store yields two
different identifiers (1, then 2) and inserts two `Class` rows: the
`POST /classes/level-stream` endpoint never answers 409 for an existing base
class when `stream` is `None` (its add-stream branch requires a stream
name), so the second resolution falls through to the create path. -/
theorem C1_resolver_not_idempotent :
    (resolveBaseClass "Class 8" 2025 emptyStore).1 = some 1 ∧
      (resolveBaseClass "Class 8" 2025
          (resolveBaseClass "Class 8" 2025 emptyStore).2).1 = some 2 ∧
      ((resolveBaseClass "Class 8" 2025
          (resolveBaseClass "Class 8" 2025 emptyStore).2).2).classes.length
        = 2 := by
  exact ⟨rfl, rfl, rfl⟩

/-- C10 counterexample: with two duplicate base classes for level `Class 8`
and year 2025 — id 1 (name `Class 8`) created first, id 2 (name `Aclass 8`)
created second — the backend lists both, yet `ActionAddStreamToClass.run`'s
`classes[0]` pick selects id 2: the listing is ordered by
`(lower(level), lower(name))`, not by creation order, and this action path
logs no warning. -/
theorem C10_duplicate_pick_counterexample :
    (get_classes (some "Class 8") (some 2025) storeDup).length = 2 ∧
      pickTargetClass "Class 8" 2025 storeDup
        = some ⟨2, "Aclass 8", "Class 8", 2025, none⟩ ∧
      storeDup.classes.head? = some ⟨1, "Class 8", "Class 8", 2025, none⟩ := by
  exact ⟨rfl, rfl, rfl⟩

theorem streamLoop_foldl (resp : String → Nat) (streams : List String)
    (a k f : List String) :
    streams.foldl (fun acc s =>
        if resp s = 201 then (acc.1 ++ [s], acc.2.1, acc.2.2)
        else if resp s = 409 then (acc.1, acc.2.1 ++ [s], acc.2.2)
        else (acc.1, acc.2.1, acc.2.2 ++ [s])) (a, k, f)
      = (a ++ streams.filter (fun s => resp s == 201),
          k ++ streams.filter (fun s => resp s == 409),
          f ++ streams.filter (fun s =>
            !(resp s == 201) && !(resp s == 409))) := by
  induction streams generalizing a k f with
  | nil => simp
  | cons s ss ih =>
    simp only [List.foldl_cons, List.filter_cons]
    by_cases h1 : resp s = 201
    · rw [if_pos h1, ih]
      simp [h1]
    · rw [if_neg h1]
      by_cases h2 : resp s = 409
      · rw [if_pos h2, ih]
        simp [h1, h2]
      · rw [if_neg h2, ih]
        simp [h1, h2]

/-- C3: each requested stream is attempted on its own and is bucketed by its
own response's status code alone — `added` collects exactly the streams
answered 201, `skipped` (already existed) exactly those answered 409, and
`failed` the rest, so no outcome blocks the others; each non-empty bucket
contributes its own distinct part of the single response message.  In the
spec's scenario — requesting `["Red", "Blue"]` where `Red` already exists
(its POST answers 409, per the stream endpoint modelled from the spec) and
`Blue` is new — the buckets are `added=["Blue"]`, `skipped=["Red"]`,
`failed=[]`, and the message mentions both buckets. -/
theorem C3_stream_buckets :
    (∀ (resp : String → Nat) (streams : List String),
        streamLoop resp streams
          = (streams.filter (fun s => resp s == 201),
              streams.filter (fun s => resp s == 409),
              streams.filter (fun s =>
                !(resp s == 201) && !(resp s == 409)))) ∧
      streamLoop (postStreamStatus ["Red"]) ["Red", "Blue"]
        = (["Blue"], ["Red"], []) ∧
      buildStreamMessages "Class 8" 2025 ["Blue"] ["Red"] []
        = [.addedOne "Class 8" "Blue" 2025, .addedOneEnroll "Class 8" "Blue",
            .skippedExist ["Red"] "Class 8"] := by
  refine ⟨fun resp streams => ?_, rfl, rfl⟩
  unfold streamLoop
  rw [streamLoop_foldl]
  simp

theorem studentPostOutcome_events (status year : Nat)
    (term first last admission class_name : String) (wasCreated : Bool)
    (classId : Nat) (calls : List ApiCall) :
    (studentPostOutcome status year term first last admission class_name
        wasCreated classId calls).events = clearAllStudent := by
  unfold studentPostOutcome
  dsimp only
  split_ifs <;> rfl

theorem studentPostOutcome_no_auth (status year : Nat)
    (term first last admission class_name : String) (wasCreated : Bool)
    (classId : Nat) (calls : List ApiCall) :
    SMsg.authRequired ∉ (studentPostOutcome status year term first last
      admission class_name wasCreated classId calls).messages := by
  unfold studentPostOutcome
  dsimp only
  split_ifs <;> simp

theorem createStudentApiPhase_events
    (admission_no first_name last_name class_name : String)
    (env : StudentEnv)
    (h : (createStudentApiPhase admission_no first_name last_name class_name
        env).api_calls.any isPostStudent = true) :
    (createStudentApiPhase admission_no first_name last_name class_name
        env).events = clearAllStudent := by
  revert h
  unfold createStudentApiPhase
  by_cases h1 : env.setupStatus ≠ 200
  · rw [if_pos h1]
    intro h
    simp [isPostStudent] at h
  · rw [if_neg h1]
    by_cases h2 : (!env.setup_complete) = true
    · rw [if_pos h2]
      intro h
      simp [isPostStudent] at h
    · rw [if_neg h2]
      rcases env.current_year with _ | yi <;>
        rcases env.current_term with _ | ti <;> try dsimp only
      all_goals try (intro h; simp [isPostStudent] at h; done)
      by_cases h3 : env.classStatus ≠ 200
      · rw [if_pos h3]
        intro h
        simp [isPostStudent] at h
      · rw [if_neg h3]
        split
        · intro _
          apply studentPostOutcome_events
        · split
          · intro _
            apply studentPostOutcome_events
          · intro _
            rfl

theorem createStudentApiPhase_no_auth
    (admission_no first_name last_name class_name : String)
    (env : StudentEnv) :
    SMsg.authRequired ∉ (createStudentApiPhase admission_no first_name
      last_name class_name env).messages := by
  unfold createStudentApiPhase
  by_cases h1 : env.setupStatus ≠ 200
  · rw [if_pos h1]
    simp
  · rw [if_neg h1]
    by_cases h2 : (!env.setup_complete) = true
    · rw [if_pos h2]
      simp
    · rw [if_neg h2]
      rcases env.current_year with _ | yi <;>
        rcases env.current_term with _ | ti <;> try dsimp only
      all_goals try (simp; done)
      by_cases h3 : env.classStatus ≠ 200
      · rw [if_pos h3]
        simp
      · rw [if_neg h3]
        split
        · apply studentPostOutcome_no_auth
        · split
          · apply studentPostOutcome_no_auth
          · simp

/-- C2 counterexample: the one-token-name fallback check inside
`ActionCreateStudent.run` (lines 96-111) rejects the proposed name
`"Joshua"` but clears ALL three operation slots, so the previously
validated `admission_no` and `class_name` do not keep their values. -/
theorem C2_reject_clears_other_slots_counterexample :
    runCreateStudent ⟨some "tok", some "school-1"⟩
        ⟨some "ADM001", some "Joshua", some "8A"⟩ envDup
      = ⟨[.fullNameRequired],
          [("student_name", none), ("admission_no", none),
            ("class_name", none)], []⟩ ∧
      applyStudentEvents ⟨some "ADM001", some "Joshua", some "8A"⟩
          (runCreateStudent ⟨some "tok", some "school-1"⟩
            ⟨some "ADM001", some "Joshua", some "8A"⟩ envDup).events
        = ⟨none, none, none⟩ := by
  have h : runCreateStudent ⟨some "tok", some "school-1"⟩
      ⟨some "ADM001", some "Joshua", some "8A"⟩ envDup
      = ⟨[.fullNameRequired],
          [("student_name", none), ("admission_no", none),
            ("class_name", none)], []⟩ := by
    simp [runCreateStudent, createStudentApiPhase, studentPostOutcome, envDup, truthyS, normalize_class_name,
      matchGradeNumLetter, matchGradeNumLetterKw, matchNumLetter, ciPrefix,
      stripChars, pyTitle, pyTitleAux, splitWs_eq, nameFirstLast, joinSpace,
      clearAllStudent, lowerList, lowerChar, upperChar, isWsChar, isWordChar,
      isDigitChar, isAlphaChar, Char.ofNat, Nat.isValidChar, List.dropWhile,
      List.takeWhile, String.data, List.find?]
  exact ⟨h, by rw [h]; rfl⟩

/-- C2 (amended): when the form validator rejects a proposed student name,
the validation result touches only the `student_name` slot (the dict it
returns has no other key), so the other slots keep their values; but the
fallback one-token name check inside `ActionCreateStudent.run` itself
clears all three operation slots (`student_name`, `admission_no`,
`class_name`) whenever a name with fewer than two tokens reaches it. -/
theorem C2_validator_frame_amended :
    (∀ (s : StudentSlots) (intent text : String) (slotv : Option String),
        (applyNameValidation s intent text slotv).admission_no
            = s.admission_no ∧
          (applyNameValidation s intent text slotv).class_name
            = s.class_name) ∧
      ∀ (meta : Metadata) (slots : StudentSlots) (env : StudentEnv),
        truthyS meta.auth_token = true →
        truthyS slots.admission_no = true →
        truthyS slots.student_name = true →
        truthyS slots.class_name = true →
        (splitWs (slots.student_name.getD "").data).length < 2 →
        runCreateStudent meta slots env
          = ⟨[.fullNameRequired],
              [("student_name", none), ("admission_no", none),
                ("class_name", none)], []⟩ := by
  refine ⟨fun s intent text slotv => ⟨rfl, rfl⟩,
    fun meta slots env h1 h2 h3 h4 h5 => ?_⟩
  unfold runCreateStudent
  simp only [h1, h2, h3, h4, Bool.not_true, Bool.or_self, Bool.or_false,
    Bool.false_or, if_false, Bool.false_eq_true]
  try dsimp only
  rw [if_pos h5]

/-- C2 witness: the amended theorem's run conjunct applied at a concrete
turn whose student name has a single token. -/
theorem C2_validator_frame_amended_witness :
    runCreateStudent ⟨some "tok", some "sch"⟩
        ⟨some "ADM009", some "Otieno", some "8A"⟩ envOk
      = ⟨[.fullNameRequired],
          [("student_name", none), ("admission_no", none),
            ("class_name", none)], []⟩ := by
  refine C2_validator_frame_amended.2 ⟨some "tok", some "sch"⟩
    ⟨some "ADM009", some "Otieno", some "8A"⟩ envOk (by decide) (by decide)
    (by decide) (by decide) ?_
  simp [splitWs_eq, isWsChar, List.dropWhile, List.takeWhile, String.data]

/-- C4 counterexample: with an auth token present but the school identifier
absent from the metadata, `ActionCreateStudent.run` does not fail fast: it
issues the academic-setup API request anyway (only the token is checked),
and no authentication-required message is uttered. -/
theorem C4_missing_school_id_counterexample :
    (runCreateStudent ⟨some "token-1", none⟩
          ⟨some "ADM001", some "Joshua Mwangi", some "8A"⟩
          envSetupFail).api_calls
        = [.getSetup] ∧
      SMsg.authRequired ∉
        (runCreateStudent ⟨some "token-1", none⟩
            ⟨some "ADM001", some "Joshua Mwangi", some "8A"⟩
            envSetupFail).messages := by
  have h : runCreateStudent ⟨some "token-1", none⟩
      ⟨some "ADM001", some "Joshua Mwangi", some "8A"⟩ envSetupFail
      = ⟨[.setupRequired], clearAllStudent, [.getSetup]⟩ := by
    simp [runCreateStudent, createStudentApiPhase, studentPostOutcome, envSetupFail, truthyS, normalize_class_name,
      matchGradeNumLetter, matchGradeNumLetterKw, matchNumLetter, ciPrefix,
      stripChars, pyTitle, pyTitleAux, splitWs_eq, nameFirstLast, joinSpace,
      clearAllStudent, lowerList, lowerChar, upperChar, isWsChar, isWordChar,
      isDigitChar, isAlphaChar, Char.ofNat, Nat.isValidChar, List.dropWhile,
      List.takeWhile, String.data, List.find?]
  rw [h]
  exact ⟨rfl, by simp⟩

/-- C4 (amended): each action checks only the authentication token.  When
the token is absent or empty, `ActionCreateStudent.run` responds with the
authentication-required message and returns before issuing any API call;
when the token is non-empty, no authentication-required message is ever
uttered — a missing school identifier is not checked and does not prevent
API calls. -/
theorem C4_auth_check_amended :
    (∀ (sid : Option String) (slots : StudentSlots) (env : StudentEnv),
        runCreateStudent ⟨none, sid⟩ slots env = ⟨[.authRequired], [], []⟩) ∧
      (∀ (sid : Option String) (slots : StudentSlots) (env : StudentEnv),
        runCreateStudent ⟨some "", sid⟩ slots env
          = ⟨[.authRequired], [], []⟩) ∧
      ∀ (tok : String) (sid : Option String) (slots : StudentSlots)
          (env : StudentEnv), tok ≠ "" →
        SMsg.authRequired ∉
          (runCreateStudent ⟨some tok, sid⟩ slots env).messages := by
  refine ⟨fun sid slots env => rfl, fun sid slots env => rfl,
    fun tok sid slots env ht => ?_⟩
  unfold runCreateStudent
  have h1 : truthyS (some tok) = true := by simp [truthyS, ht]
  rw [h1]
  simp only [Bool.not_true, Bool.false_eq_true, if_false]
  try dsimp only
  by_cases hB : (!truthyS slots.student_name || !truthyS slots.class_name
      || !truthyS slots.admission_no) = true
  · rw [if_pos hB]
    simp
  · rw [if_neg hB]
    try dsimp only
    by_cases hC : (splitWs (slots.student_name.getD "").data).length < 2
    · rw [if_pos hC]
      simp
    · rw [if_neg hC]
      apply createStudentApiPhase_no_auth

/-- C4 witness: the amended theorem's third conjunct applied at a concrete
non-empty token with the school identifier absent. -/
theorem C4_auth_check_amended_witness :
    SMsg.authRequired ∉
      (runCreateStudent ⟨some "tok", none⟩
          ⟨some "ADM001", some "Joshua Mwangi", some "8a"⟩ envDup).messages :=
  C4_auth_check_amended.2.2 "tok" none
    ⟨some "ADM001", some "Joshua Mwangi", some "8a"⟩ envDup (by decide)

/-- C5 counterexample: when the create-student POST answers 409 (duplicate
admission number), `ActionCreateStudent.run` clears ALL three operation
slots — the student name and class are not preserved for re-prompting, only
the admission number message distinguishes the conflict. -/
theorem C5_duplicate_conflict_counterexample :
    runCreateStudent ⟨some "tok", some "school-1"⟩
        ⟨some "ADM001", some "Joshua Mwangi", some "8a"⟩ envDup
      = ⟨[.duplicateAdmission "ADM001"],
          [("admission_no", none), ("student_name", none),
            ("class_name", none)],
          [.getSetup, .getClasses "8A",
            .postStudent "ADM001" "Joshua" "Mwangi" 5]⟩ ∧
      applyStudentEvents ⟨some "ADM001", some "Joshua Mwangi", some "8a"⟩
          (runCreateStudent ⟨some "tok", some "school-1"⟩
            ⟨some "ADM001", some "Joshua Mwangi", some "8a"⟩ envDup).events
        = ⟨none, none, none⟩ := by
  have h : runCreateStudent ⟨some "tok", some "school-1"⟩
      ⟨some "ADM001", some "Joshua Mwangi", some "8a"⟩ envDup
      = ⟨[.duplicateAdmission "ADM001"],
          [("admission_no", none), ("student_name", none),
            ("class_name", none)],
          [.getSetup, .getClasses "8A",
            .postStudent "ADM001" "Joshua" "Mwangi" 5]⟩ := by
    simp [runCreateStudent, createStudentApiPhase, studentPostOutcome, envDup, truthyS, normalize_class_name,
      matchGradeNumLetter, matchGradeNumLetterKw, matchNumLetter, ciPrefix,
      stripChars, pyTitle, pyTitleAux, splitWs_eq, nameFirstLast, joinSpace,
      clearAllStudent, lowerList, lowerChar, upperChar, isWsChar, isWordChar,
      isDigitChar, isAlphaChar, Char.ofNat, Nat.isValidChar, List.dropWhile,
      List.takeWhile, String.data, List.find?]
  exact ⟨h, by rw [h]; rfl⟩

/-- C5 (amended): every outcome of the terminal create-student POST —
success, duplicate-admission conflict (409), and every failure code alike —
clears all three operation slots (`admission_no`, `student_name`,
`class_name`); the conflict does not preserve the student name or class for
re-prompting.  The second conjunct shows the success case concretely. -/
theorem C5_slot_clearing_amended :
    (∀ (meta : Metadata) (slots : StudentSlots) (env : StudentEnv),
        ((runCreateStudent meta slots env).api_calls.any isPostStudent)
            = true →
          (runCreateStudent meta slots env).events = clearAllStudent) ∧
      runCreateStudent ⟨some "tok", some "school-1"⟩
          ⟨some "ADM002", some "Mary Wanjiku Kamau", some "8A"⟩ envOk
        = ⟨[.studentCreated 2025 "Term 1" "Mary" "Wanjiku Kamau" "ADM002"
              "8A" false],
            clearAllStudent,
            [.getSetup, .getClasses "8A",
              .postStudent "ADM002" "Mary" "Wanjiku Kamau" 5]⟩ := by
  constructor
  · intro meta slots env h
    unfold runCreateStudent at h ⊢
    by_cases hA : (!truthyS meta.auth_token) = true
    · rw [if_pos hA] at h
      simp [isPostStudent] at h
    · rw [if_neg hA] at h ⊢
      by_cases hB : (!truthyS slots.student_name
          || !truthyS slots.class_name || !truthyS slots.admission_no) = true
      · rw [if_pos hB] at h
        simp [isPostStudent] at h
      · rw [if_neg hB] at h ⊢
        dsimp only at h ⊢
        by_cases hC : (splitWs (slots.student_name.getD "").data).length < 2
        · rw [if_pos hC] at h
          simp [isPostStudent] at h
        · rw [if_neg hC] at h ⊢
          exact createStudentApiPhase_events _ _ _ _ _ h
  · simp [runCreateStudent, createStudentApiPhase, studentPostOutcome, envOk, truthyS, normalize_class_name,
      matchGradeNumLetter, matchGradeNumLetterKw, matchNumLetter, ciPrefix,
      stripChars, pyTitle, pyTitleAux, splitWs_eq, nameFirstLast, joinSpace,
      clearAllStudent, lowerList, lowerChar, upperChar, isWsChar, isWordChar,
      isDigitChar, isAlphaChar, Char.ofNat, Nat.isValidChar, List.dropWhile,
      List.takeWhile, String.data, List.find?]

/-- C5 witness: the amended theorem's first conjunct applied at the
concrete successful turn of its second conjunct. -/
theorem C5_slot_clearing_amended_witness :
    (runCreateStudent ⟨some "tok", some "school-1"⟩
        ⟨some "ADM002", some "Mary Wanjiku Kamau", some "8A"⟩ envOk).events
      = clearAllStudent := by
  have h := C5_slot_clearing_amended
  refine h.1 _ _ _ ?_
  rw [h.2]
  rfl

/-! ## Facts about whitespace splitting (for the name validator) -/

theorem dropWhile_eq_cons_head {α : Type} {p : α → Bool} {l : List α}
    {c : α} {cs : List α} (h : l.dropWhile p = c :: cs) : p c = false := by
  induction l with
  | nil => simp [List.dropWhile] at h
  | cons x xs ih =>
    rw [List.dropWhile_cons] at h
    by_cases hx : p x = true
    · rw [if_pos hx] at h
      exact ih h
    · rw [if_neg hx] at h
      obtain ⟨rfl, -⟩ := List.cons.inj h
      exact Bool.eq_false_iff.mpr hx

theorem takeWhile_all_eq {α : Type} {p : α → Bool} {l : List α}
    (h : l.all p = true) : l.takeWhile p = l := by
  induction l with
  | nil => rfl
  | cons x xs ih =>
    simp only [List.all_cons, Bool.and_eq_true] at h
    rw [List.takeWhile_cons, if_pos h.1, ih h.2]

theorem dropWhile_all_eq {α : Type} {p : α → Bool} {l : List α}
    (h : l.all p = true) : l.dropWhile p = [] := by
  induction l with
  | nil => rfl
  | cons x xs ih =>
    simp only [List.all_cons, Bool.and_eq_true] at h
    rw [List.dropWhile_cons, if_pos h.1, ih h.2]

theorem takeWhile_append_all {α : Type} {p : α → Bool} {w r : List α}
    (h : w.all p = true) : (w ++ r).takeWhile p = w ++ r.takeWhile p := by
  induction w with
  | nil => rfl
  | cons x xs ih =>
    simp only [List.all_cons, Bool.and_eq_true] at h
    rw [List.cons_append, List.takeWhile_cons, if_pos h.1, ih h.2,
      List.cons_append]

theorem dropWhile_append_all {α : Type} {p : α → Bool} {w r : List α}
    (h : w.all p = true) : (w ++ r).dropWhile p = r.dropWhile p := by
  induction w with
  | nil => rfl
  | cons x xs ih =>
    simp only [List.all_cons, Bool.and_eq_true] at h
    rw [List.cons_append, List.dropWhile_cons, if_pos h.1, ih h.2]

theorem mem_takeWhile_pred {α : Type} {p : α → Bool} {l : List α} {x : α}
    (hx : x ∈ l.takeWhile p) : p x = true := by
  induction l with
  | nil => simp [List.takeWhile] at hx
  | cons y ys ih =>
    rw [List.takeWhile_cons] at hx
    by_cases hy : p y = true
    · rw [if_pos hy] at hx
      rcases List.mem_cons.mp hx with rfl | h
      · exact hy
      · exact ih h
    · rw [if_neg hy] at hx
      simp at hx

theorem splitWs_nil : splitWs [] = [] := by
  rw [splitWs_eq]
  rfl

theorem splitWs_cons_ws {x : Char} (h : isWsChar x = true) (t : List Char) :
    splitWs (x :: t) = splitWs t := by
  rw [splitWs_eq, splitWs_eq t]
  simp [List.dropWhile_cons, h]

theorem splitWs_word_sep {w : List Char} (r : List Char) (hne : w ≠ [])
    (hall : w.all (fun c => !isWsChar c) = true) :
    splitWs (w ++ ' ' :: r) = w :: splitWs r := by
  cases w with
  | nil => exact absurd rfl hne
  | cons c cs =>
    simp only [List.all_cons, Bool.and_eq_true] at hall
    have hc : isWsChar c = false := by
      cases hcc : isWsChar c
      · rfl
      · rw [hcc] at hall
        exact absurd hall.1 (by decide)
    rw [splitWs_eq, List.cons_append]
    have h1 : (c :: (cs ++ ' ' :: r)).dropWhile isWsChar
        = c :: (cs ++ ' ' :: r) := by
      rw [List.dropWhile_cons, if_neg (by simp [hc])]
    rw [h1]
    dsimp only
    have h2 : (cs ++ ' ' :: r).takeWhile (fun x => !isWsChar x) = cs := by
      rw [takeWhile_append_all hall.2, List.takeWhile_cons,
        if_neg (by decide), List.append_nil]
    have h3 : (cs ++ ' ' :: r).dropWhile (fun x => !isWsChar x)
        = ' ' :: r := by
      rw [dropWhile_append_all hall.2, List.dropWhile_cons,
        if_neg (by decide)]
    rw [h2, h3, splitWs_cons_ws (by decide) r]

theorem splitWs_word {w : List Char} (hne : w ≠ [])
    (hall : w.all (fun c => !isWsChar c) = true) : splitWs w = [w] := by
  cases w with
  | nil => exact absurd rfl hne
  | cons c cs =>
    simp only [List.all_cons, Bool.and_eq_true] at hall
    have hc : isWsChar c = false := by
      cases hcc : isWsChar c
      · rfl
      · rw [hcc] at hall
        exact absurd hall.1 (by decide)
    rw [splitWs_eq]
    have h1 : (c :: cs).dropWhile isWsChar = c :: cs := by
      rw [List.dropWhile_cons, if_neg (by simp [hc])]
    rw [h1]
    dsimp only
    rw [takeWhile_all_eq hall.2, dropWhile_all_eq hall.2, splitWs_nil]

/-- Every word produced by `splitWs` is non-empty and whitespace-free. -/
theorem splitWs_words (t : List Char) :
    ∀ w ∈ splitWs t, w ≠ [] ∧ w.all (fun c => !isWsChar c) = true := by
  have hgen : ∀ n (t : List Char), t.length ≤ n →
      ∀ w ∈ splitWs t, w ≠ [] ∧ w.all (fun c => !isWsChar c) = true := by
    intro n
    induction n with
    | zero =>
      intro t ht w hw
      have : t = [] := List.length_eq_zero.mp (Nat.le_zero.mp ht)
      subst this
      rw [splitWs_nil] at hw
      simp at hw
    | succ n ih =>
      intro t ht w hw
      rw [splitWs_eq] at hw
      cases hd : t.dropWhile isWsChar with
      | nil =>
        rw [hd] at hw
        simp at hw
      | cons c cs =>
        rw [hd] at hw
        dsimp only at hw
        have hdl : (t.dropWhile isWsChar).length ≤ t.length :=
          length_dropWhile_le isWsChar t
        rw [hd] at hdl
        rcases List.mem_cons.mp hw with hweq | hwtail
        · subst hweq
          refine ⟨by simp, ?_⟩
          simp only [List.all_cons, Bool.and_eq_true]
          constructor
          · have hc := dropWhile_eq_cons_head hd
            simp [hc]
          · exact List.all_eq_true.mpr fun x hx =>
              @mem_takeWhile_pred Char (fun y => !isWsChar y) cs x hx
        · refine ih (cs.dropWhile (fun y => !isWsChar y)) ?_ w hwtail
          have h2 : (cs.dropWhile (fun y => !isWsChar y)).length
              ≤ cs.length := length_dropWhile_le _ cs
          simp only [List.length_cons] at hdl
          omega
  exact hgen t.length t (Nat.le_refl _)

/-- Splitting the space-joined words recovers them, provided each word is
non-empty and whitespace-free. -/
theorem splitWs_joinSpace (parts : List (List Char))
    (h : ∀ w ∈ parts, w ≠ [] ∧ w.all (fun c => !isWsChar c) = true) :
    splitWs (joinSpace parts) = parts := by
  induction parts with
  | nil => exact splitWs_nil
  | cons w ws ih =>
    cases ws with
    | nil =>
      have hw := h w (List.mem_cons_self _ _)
      exact splitWs_word hw.1 hw.2
    | cons w2 ws2 =>
      have hw := h w (List.mem_cons_self _ _)
      show splitWs (w ++ ' ' :: joinSpace (w2 :: ws2)) = w :: w2 :: ws2
      rw [splitWs_word_sep _ hw.1 hw.2]
      rw [ih (fun x hx => h x (List.mem_cons_of_mem _ hx))]

/-- C9 counterexample: the student-name validator has no phone-number or
`@` check — a candidate of two all-digit tokens, and one containing `@`,
are both accepted verbatim. -/
theorem C9_phone_at_accepted_counterexample :
    (validate_student_name "inform" "0712345678 99999" none).1
        = some "0712345678 99999" ∧
      (validate_student_name "inform" "joshua@mail mwangi" none).1
        = some "joshua@mail mwangi" := by
  constructor <;>
    simp [validate_student_name, clear_interruptions, stripChars,
      matchNamePrefix, matchWordsWs, matchIts, ciPrefix, isCommandText,
      kwThenWs, kwWsEnd, pyIsDigit, isDigitChar, isWsChar, isAlphaChar,
      isWordChar, lowerChar, splitWs_eq, Char.ofNat, Nat.isValidChar,
      List.dropWhile, List.takeWhile, String.data]

/-- C9 (amended): the validator rejects any candidate with fewer than two
whitespace-separated tokens (the slot stays empty and a re-prompt is
issued) and accepts every other candidate verbatim — it has no
phone-number or `@` check.  Conjuncts: `"Joshua"` is rejected with the
one-part re-prompt; `"Joshua Mwangi"` is accepted and stored unchanged;
every accepted value has at least two tokens and acceptance utters no
message; and the action's first/last split preserves the full token
sequence (first token = given name, remaining tokens joined = family
name). -/
theorem C9_validate_student_name_amended :
    validate_student_name "inform" "Joshua" none
        = (none, [.fullNameOnePart "Joshua"]) ∧
      validate_student_name "inform" "Joshua Mwangi" none
        = (some "Joshua Mwangi", []) ∧
      (∀ (intent text : String) (slotv : Option String) (v : String)
          (msgs : List VMsg),
        validate_student_name intent text slotv = (some v, msgs) →
          2 ≤ (splitWs v.data).length ∧ msgs = []) ∧
      ∀ c : List Char, 2 ≤ (splitWs c).length →
        splitWs ((nameFirstLast (splitWs c)).1
            ++ ' ' :: (nameFirstLast (splitWs c)).2)
          = splitWs c := by
  refine ⟨?_, ?_, ?_, ?_⟩
  · simp [validate_student_name, clear_interruptions, stripChars,
      matchNamePrefix, matchWordsWs, matchIts, ciPrefix, isCommandText,
      kwThenWs, kwWsEnd, pyIsDigit, isDigitChar, isWsChar, isAlphaChar,
      isWordChar, lowerChar, splitWs_eq, Char.ofNat, Nat.isValidChar,
      List.dropWhile, List.takeWhile, String.data]
  · simp [validate_student_name, clear_interruptions, stripChars,
      matchNamePrefix, matchWordsWs, matchIts, ciPrefix, isCommandText,
      kwThenWs, kwWsEnd, pyIsDigit, isDigitChar, isWsChar, isAlphaChar,
      isWordChar, lowerChar, splitWs_eq, Char.ofNat, Nat.isValidChar,
      List.dropWhile, List.takeWhile, String.data]
  · intro intent text slotv v msgs h
    unfold validate_student_name at h
    by_cases hint : intent ∈ clear_interruptions
    · rw [if_pos hint] at h
      simp at h
    · rw [if_neg hint] at h
      dsimp only at h
      split at h
      · rename_i c hceq
        by_cases hce : c ≠ []
        · rw [if_pos hce] at h
          by_cases hlen : c.length < 3
          · rw [if_pos hlen] at h
            simp at h
          · rw [if_neg hlen] at h
            try dsimp only at h
            by_cases hp : (splitWs c).length < 2
            · rw [if_pos hp] at h
              simp at h
            · rw [if_neg hp] at h
              rw [Prod.mk.injEq] at h
              obtain ⟨h1, h2⟩ := h
              obtain rfl := Option.some.inj h1
              refine ⟨?_, h2.symm⟩
              show 2 ≤ (splitWs c).length
              omega
        · rw [if_neg hce] at h
          simp at h
      · simp at h
  · intro c hlen
    rcases hs : splitWs c with _ | ⟨p, rest⟩
    · rw [hs] at hlen
      simp at hlen
    · have hw := splitWs_words c
      rw [hs] at hw
      dsimp only [nameFirstLast]
      rw [splitWs_word_sep _ (hw p (List.mem_cons_self _ _)).1
        (hw p (List.mem_cons_self _ _)).2]
      rw [splitWs_joinSpace rest
        (fun x hx => hw x (List.mem_cons_of_mem _ hx))]

/-- C9 witness: the amended theorem's acceptance conjunct applied at the
accepted input `"Joshua Mwangi"` (whose acceptance is the theorem's second
conjunct). -/
theorem C9_validate_student_name_amended_witness :
    2 ≤ (splitWs ("Joshua Mwangi" : String).data).length ∧
      ([] : List VMsg) = [] := by
  have h := C9_validate_student_name_amended
  exact h.2.2.1 "inform" "Joshua Mwangi" none "Joshua Mwangi" [] h.2.1

/-! ## Order facts for the class listing's sort -/

theorem charListLe_refl (l : List Char) : charListLe l l = true := by
  induction l with
  | nil => rfl
  | cons c cs ih =>
    unfold charListLe
    rw [if_neg (Nat.lt_irrefl _), if_neg (Nat.lt_irrefl _)]
    exact ih

theorem charListLe_total (a b : List Char) :
    charListLe a b = true ∨ charListLe b a = true := by
  induction a generalizing b with
  | nil => exact Or.inl rfl
  | cons x xs ih =>
    cases b with
    | nil => exact Or.inr rfl
    | cons y ys =>
      unfold charListLe
      by_cases h1 : x.toNat < y.toNat
      · exact Or.inl (by rw [if_pos h1])
      · by_cases h2 : y.toNat < x.toNat
        · exact Or.inr (by rw [if_pos h2])
        · rw [if_neg h1, if_neg h2, if_neg h2, if_neg h1]
          exact ih ys

theorem charListLe_antisymm {a b : List Char} (h1 : charListLe a b = true)
    (h2 : charListLe b a = true) : a = b := by
  induction a generalizing b with
  | nil =>
    cases b with
    | nil => rfl
    | cons y ys => simp [charListLe] at h2
  | cons x xs ih =>
    cases b with
    | nil => simp [charListLe] at h1
    | cons y ys =>
      unfold charListLe at h1 h2
      by_cases hxy : x.toNat < y.toNat
      · rw [if_neg (by omega : ¬ y.toNat < x.toNat), if_pos hxy] at h2
        exact absurd h2 (by decide)
      · by_cases hyx : y.toNat < x.toNat
        · rw [if_neg hxy, if_pos hyx] at h1
          exact absurd h1 (by decide)
        · rw [if_neg hxy, if_neg hyx] at h1
          rw [if_neg hyx, if_neg hxy] at h2
          have hx : x = y := char_toNat_injective (by omega)
          rw [hx, ih h1 h2]

theorem charListLe_trans {a b c : List Char} (h1 : charListLe a b = true)
    (h2 : charListLe b c = true) : charListLe a c = true := by
  induction a generalizing b c with
  | nil => rfl
  | cons x xs ih =>
    cases b with
    | nil => simp [charListLe] at h1
    | cons y ys =>
      cases c with
      | nil => simp [charListLe] at h2
      | cons z zs =>
        unfold charListLe at h1 h2 ⊢
        by_cases hxy : x.toNat < y.toNat <;> by_cases hyz : y.toNat < z.toNat
        · rw [if_pos (by omega : x.toNat < z.toNat)]
        · rw [if_neg hyz] at h2
          by_cases hzy : z.toNat < y.toNat
          · rw [if_pos hzy] at h2
            exact absurd h2 (by decide)
          · rw [if_pos (by omega : x.toNat < z.toNat)]
        · rw [if_neg hxy] at h1
          by_cases hyx : y.toNat < x.toNat
          · rw [if_pos hyx] at h1
            exact absurd h1 (by decide)
          · rw [if_pos (by omega : x.toNat < z.toNat)]
        · rw [if_neg hxy] at h1
          rw [if_neg hyz] at h2
          by_cases hyx : y.toNat < x.toNat
          · rw [if_pos hyx] at h1
            exact absurd h1 (by decide)
          · by_cases hzy : z.toNat < y.toNat
            · rw [if_pos hzy] at h2
              exact absurd h2 (by decide)
            · rw [if_neg hyx] at h1
              rw [if_neg hzy] at h2
              rw [if_neg (by omega : ¬ x.toNat < z.toNat),
                if_neg (by omega : ¬ z.toNat < x.toNat)]
              exact ih h1 h2

theorem classSortLe_refl (a : StoredClass) : classSortLe a a = true := by
  unfold classSortLe
  rw [if_pos rfl]
  exact charListLe_refl _

theorem classSortLe_total (a b : StoredClass) :
    classSortLe a b = true ∨ classSortLe b a = true := by
  unfold classSortLe
  by_cases h : lowerList a.level.data = lowerList b.level.data
  · rw [if_pos h, if_pos h.symm]
    exact charListLe_total _ _
  · rw [if_neg h, if_neg (fun hh => h hh.symm)]
    exact charListLe_total _ _

theorem classSortLe_trans {a b c : StoredClass}
    (h1 : classSortLe a b = true) (h2 : classSortLe b c = true) :
    classSortLe a c = true := by
  unfold classSortLe at h1 h2 ⊢
  by_cases hab : lowerList a.level.data = lowerList b.level.data <;>
    by_cases hbc : lowerList b.level.data = lowerList c.level.data
  · rw [if_pos hab] at h1
    rw [if_pos hbc] at h2
    rw [if_pos (hab.trans hbc)]
    exact charListLe_trans h1 h2
  · rw [if_pos hab] at h1
    rw [if_neg hbc] at h2
    rw [if_neg (fun hh => hbc (hab.symm.trans hh)), hab]
    exact h2
  · rw [if_neg hab] at h1
    rw [if_pos hbc] at h2
    rw [if_neg (fun hh => hab (hh.trans hbc.symm)), ← hbc]
    exact h1
  · rw [if_neg hab] at h1
    rw [if_neg hbc] at h2
    by_cases hac : lowerList a.level.data = lowerList c.level.data
    · exfalso
      apply hab
      apply charListLe_antisymm h1
      rw [hac]
      exact h2
    · rw [if_neg hac]
      exact charListLe_trans h1 h2

instance instIsTotalClassSortLe :
    IsTotal StoredClass (fun a b => classSortLe a b = true) :=
  ⟨classSortLe_total⟩

instance instIsTransClassSortLe :
    IsTrans StoredClass (fun a b => classSortLe a b = true) :=
  ⟨fun _ _ _ => classSortLe_trans⟩

/-- C10 (amended): when the class listing returns any match, the resolver's
`classes[0]` pick succeeds and selects the minimal match in the backend's
`(lower(level), lower(name))` ordering — the order of the listing — not the
first by creation order; and everything listed is a stored class of the
requested year whose name or level contains the search term
case-insensitively.  The operation never fails because of pre-existing
duplicates (the pick is always `some` when a match exists), but this action
path emits no warning. -/
theorem C10_duplicate_pick_amended :
    (∀ (name : String) (year : Nat) (store : Store),
        get_classes (some name) (some year) store ≠ [] →
          ∃ c, pickTargetClass name year store = some c ∧
            c ∈ get_classes (some name) (some year) store ∧
            ∀ d ∈ get_classes (some name) (some year) store,
              classSortLe c d = true) ∧
      ∀ (name : String) (year : Nat) (store : Store) (c : StoredClass),
        c ∈ get_classes (some name) (some year) store →
          c ∈ store.classes ∧ c.academic_year = year ∧
            (ciContains c.name name = true ∨ ciContains c.level name = true) := by
  constructor
  · intro name year store hne
    rcases hl : get_classes (some name) (some year) store with _ | ⟨c, cs⟩
    · exact absurd hl hne
    · refine ⟨c, ?_, ?_, ?_⟩
      · show (get_classes (some name) (some year) store).head? = some c
        rw [hl]
        rfl
      · exact List.mem_cons_self _ _
      · intro d hd
        have hsorted : List.Sorted (fun a b => classSortLe a b = true)
            (get_classes (some name) (some year) store) := by
          unfold get_classes
          exact List.Pairwise.sublist (List.take_sublist _ _)
            (List.sorted_insertionSort _ _)
        rw [hl] at hsorted
        rcases List.mem_cons.mp hd with rfl | hd2
        · exact classSortLe_refl _
        · exact List.rel_of_sorted_cons hsorted d hd2
  · intro name year store c hc
    simp only [get_classes] at hc
    have h1 := List.mem_of_mem_take hc
    have h2 := (List.perm_insertionSort
      (fun a b => classSortLe a b = true) _).mem_iff.mp h1
    have h3 := List.mem_filter.mp h2
    have h4 := List.mem_filter.mp h3.1
    refine ⟨h4.1, by simpa using h4.2, ?_⟩
    have := h3.2
    rcases Bool.or_eq_true _ _ |>.mp this with h | h
    · exact Or.inl h
    · exact Or.inr h

/-- C10 witness: the amended theorem's pick conjunct applied at the
two-duplicate store. -/
theorem C10_duplicate_pick_amended_witness :
    ∃ c, pickTargetClass "Class 8" 2025 storeDup = some c ∧
      c ∈ get_classes (some "Class 8") (some 2025) storeDup ∧
      ∀ d ∈ get_classes (some "Class 8") (some 2025) storeDup,
        classSortLe c d = true :=
  C10_duplicate_pick_amended.1 "Class 8" 2025 storeDup (by decide)

end SchoolRasa
